import Mathlib

/-
Verification development for the `gdwg::graph<N, E>` generic directed weighted
graph container (header `include/gdwg/graph.hpp`).

The container stores:
  * `nodes_`     : `std::set<std::shared_ptr<N>, compare_ptr_by_content<N>>`,
                   an ordered set of unique node values (compared by content);
  * `all_edges_` : `std::set<edge_type>`, an ordered set of `(src, dst, weight)`
                   records, totally ordered lexicographically by
                   (source value, destination value, weight value);
  * `min_weight_`, `max_weight_` : running weight bounds maintained on edge
                   insertion and used as synthetic bounding keys for the
                   range queries `weights`, `is_connected` and `connections`.

In this shallow embedding an ordered `std::set` is a strictly sorted Lean
`List`, a `shared_ptr` indirection disappears (the C++ comparators always
compare by pointee value), and an operation that throws
`std::runtime_error` returns `Except String`.  The two scalar members
`min_weight_` / `max_weight_` are carried as plain fields; their value in a
default-constructed graph is indeterminate in the C++ (`E` is
default-initialized), modelled here by `default` of an `Inhabited` instance.
-/

/-- Value equality of `Except` results is decidable when both payload types
have decidable equality (used to evaluate concrete runs of the throwing
operations). -/
instance {ε α : Type} [DecidableEq ε] [DecidableEq α] : DecidableEq (Except ε α) :=
  fun a b =>
    match a, b with
    | .ok x, .ok y => decidable_of_iff (x = y) (by simp)
    | .error x, .error y => decidable_of_iff (x = y) (by simp)
    | .ok _, .error _ => isFalse (by simp)
    | .error _, .ok _ => isFalse (by simp)

namespace gdwg

/-- Whether a call raised the precondition-violation error
(`std::runtime_error` in the source). -/
def throws {α : Type} (r : Except String α) : Bool :=
  match r with
  | .error _ => true
  | .ok _ => false

/-- The edge record `edge_type = {ptr_src, ptr_dst, ptr_weight}` of the C++
header, with the pointer indirection removed: the comparators of the source
always dereference, so an edge is determined by its three values. -/
structure edge_type (N E : Type) where
  src : N
  dst : N
  weight : E
deriving DecidableEq

namespace edge_type

variable {N E : Type} [LinearOrder N] [LinearOrder E]

/-- The lexicographic key (source, destination, weight) that realises the
total order of `edge_type`. -/
def key (e : edge_type N E) : N ×ₗ N ×ₗ E :=
  toLex (e.src, toLex (e.dst, e.weight))

/-- `edge_type` is totally ordered, by comparing src, then dst, then weight
(friend `operator<` of the source); the key map is injective since it lists
all three fields. -/
instance : LinearOrder (edge_type N E) :=
  LinearOrder.lift' key
    (by
      intro a b h
      cases a
      cases b
      simp only [key, toLex_inj, Prod.mk.injEq] at h
      simp_all)

end edge_type

section SortedSetHelpers

variable {α : Type} [LinearOrder α]

/-- Insertion into an ordered `std::set` represented as a strictly sorted
list: keep walking while the stored element is smaller, do nothing on an
equal element (set semantics), splice in front of the first larger one. -/
def setInsert (a : α) : List α → List α
  | [] => [a]
  | x :: xs =>
      if a < x then a :: x :: xs
      else if a = x then x :: xs
      else x :: setInsert a xs

/-- `std::set::erase` by value on the sorted-list representation: drop the
element equal to `a` (on a duplicate-free list, `filter` is exactly that). -/
def setErase (a : α) (l : List α) : List α :=
  l.filter (fun x => decide (¬ x = a))

end SortedSetHelpers


/-- The graph container.  Fields in declaration order of the C++ class:

  * `all_edges`  : `std::set<edge_type> all_edges_`, a strictly ascending list;
  * `nodes`      : `std::set<std::shared_ptr<N>, compare_ptr_by_content<N>> nodes_`,
                   a strictly ascending list of the node values (the accessor
                   `nodes()` returns exactly this in-order traversal);
  * `min_weight`, `max_weight` : the running weight bounds `min_weight_`,
                   `max_weight_`, written only on edge insertion. -/
structure graph (N E : Type) where
  all_edges : List (edge_type N E)
  nodes : List N
  min_weight : E
  max_weight : E
deriving DecidableEq

namespace graph

variable {N E : Type} [LinearOrder N] [LinearOrder E]

/-- `graph() noexcept = default`: both stores empty.  The two scalar bound
members are default-initialized in the C++ (their value is indeterminate for
trivial `E`); `default` stands for that initial value, and no theorem about
a state whose edge store is non-empty depends on it. -/
def init [Inhabited E] : graph N E :=
  { all_edges := [], nodes := [], min_weight := default, max_weight := default }

/-- `is_node(value)`: membership of the node store by value. -/
def is_node (g : graph N E) (value : N) : Bool :=
  decide (value ∈ g.nodes)

/-- `empty()`: true iff the node store is empty. -/
def empty (g : graph N E) : Bool :=
  g.nodes.isEmpty

/-- `insert_node(value)`: no-op returning false if present, else insert. -/
def insert_node (g : graph N E) (value : N) : Bool × graph N E :=
  if value ∈ g.nodes then (false, g)
  else (true, { g with nodes := setInsert value g.nodes })

/-- Private helper `update_weight_limits(weight)`:
`if (weight > max_weight_) max_weight_ = weight;`
`if (weight < min_weight_) min_weight_ = weight;` -/
def update_weight_limits (g : graph N E) (weight : E) : graph N E :=
  let g1 := if g.max_weight < weight then { g with max_weight := weight } else g
  if weight < g1.min_weight then { g1 with min_weight := weight } else g1

/-- `insert_edge(src, dst, weight)`: throws if an endpoint is missing; if the
edge store is empty first initializes both bounds to this weight; returns
false on an exact duplicate; otherwise emplaces the edge and updates the
running bounds. -/
def insert_edge (g : graph N E) (src dst : N) (weight : E) :
    Except String (Bool × graph N E) :=
  if src ∉ g.nodes ∨ dst ∉ g.nodes then
    .error "Cannot call gdwg::graph<N, E>::insert_edge when either src or dst node does not exist"
  else
    let g1 :=
      if g.all_edges.isEmpty then
        { g with min_weight := weight, max_weight := weight }
      else g
    let new_edge : edge_type N E := ⟨src, dst, weight⟩
    if new_edge ∈ g1.all_edges then .ok (false, g1)
    else .ok (true,
      update_weight_limits { g1 with all_edges := setInsert new_edge g1.all_edges } weight)

/-- The lambda `update_edge` of `merge_replace_node`: redirect to `new_data`
each endpoint equal to `old_data`. -/
def update_edge (old_data new_data : N) (e : edge_type N E) : edge_type N E :=
  { src := if e.src = old_data then new_data else e.src,
    dst := if e.dst = old_data then new_data else e.dst,
    weight := e.weight }

/-- One iteration of the `merge_replace_node` loop body on the edge set
`acc`: an edge `e` that mentions `old_data` is erased and its redirected
copy is emplaced; any other edge leaves the set untouched (`++it`). -/
def merge_step (old_data new_data : N) (acc : List (edge_type N E))
    (e : edge_type N E) : List (edge_type N E) :=
  if e.src = old_data ∨ e.dst = old_data then
    setInsert (update_edge old_data new_data e) (setErase e acc)
  else acc

/-- `merge_replace_node(old_data, new_data)`: throws if either node is
missing, no-op when equal; otherwise drops `old_data` from the node store and
walks the edge set, erasing each edge that mentions `old_data` and
re-inserting its redirected copy (set emplace, so a redirected edge equal to
one already present is dropped).

The C++ loop iterates the live set with `it = all_edges_.erase(it)`; an edge
re-inserted at a position after the cursor is visited again but no longer
mentions `old_data`, so it is skipped.  Folding the same erase/emplace step
over the snapshot of the original edge list therefore produces the same
final set. -/
def merge_replace_node (g : graph N E) (old_data new_data : N) :
    Except String (graph N E) :=
  if old_data ∉ g.nodes ∨ new_data ∉ g.nodes then
    .error "Cannot call gdwg::graph<N, E>::merge_replace_node on old or new data if they don't exist in the graph"
  else if old_data = new_data then .ok g
  else
    .ok { g with
      nodes := setErase old_data g.nodes,
      all_edges := g.all_edges.foldl (merge_step old_data new_data) g.all_edges }

/-- `replace_node(old_data, new_data)`: throws if `old_data` is missing,
returns false without mutation if `new_data` already is a node, otherwise
emplaces `new_data` and merges `old_data` into it. -/
def replace_node (g : graph N E) (old_data new_data : N) :
    Except String (Bool × graph N E) :=
  if old_data ∉ g.nodes then
    .error "Cannot call gdwg::graph<N, E>::replace_node on a node that doesn't exist"
  else if new_data ∈ g.nodes then .ok (false, g)
  else
    match merge_replace_node { g with nodes := setInsert new_data g.nodes }
        old_data new_data with
    | .ok g2 => .ok (true, g2)
    | .error m => .error m

/-- `erase_node(value)`: returns false if absent; otherwise removes the node
and, walking the edge set, every edge whose source or destination equals it. -/
def erase_node (g : graph N E) (value : N) : Bool × graph N E :=
  if value ∉ g.nodes then (false, g)
  else
    (true, { g with
      nodes := setErase value g.nodes,
      all_edges := g.all_edges.filter
        (fun e => decide (¬ (e.src = value ∨ e.dst = value))) })

/-- `erase_edge(src, dst, weight)`: throws if an endpoint is missing;
returns false if the exact edge is absent, else removes it.  The running
bounds are not touched. -/
def erase_edge (g : graph N E) (src dst : N) (weight : E) :
    Except String (Bool × graph N E) :=
  if src ∉ g.nodes ∨ dst ∉ g.nodes then
    .error "Cannot call gdwg::graph<N, E>::erase_edge on src or dst if they don't exist in the graph"
  else
    let edge : edge_type N E := ⟨src, dst, weight⟩
    if edge ∉ g.all_edges then .ok (false, g)
    else .ok (true, { g with all_edges := setErase edge g.all_edges })

/-- `erase_edge(iterator)`: the iterator designates one edge currently in
`all_edges_`; the call removes exactly that edge (the returned iterator to
the successor does not change the stored state).  `erase_edge(i, s)` removes
a contiguous run, i.e. iterates this. -/
def erase_edge_at (g : graph N E) (e : edge_type N E) : graph N E :=
  { g with all_edges := setErase e g.all_edges }

/-- `clear()`: empties both stores; the scalar bound members are untouched. -/
def clear (g : graph N E) : graph N E :=
  { g with nodes := [], all_edges := [] }

/-- `is_connected(src, dst)`: throws if an endpoint is missing; probes
`lower_bound({src, dst, min_weight_})` and reports whether the element found
lies in the closed range up to `{src, dst, max_weight_}`.  `lower_bound` on
the sorted edge list is the head of `dropWhile (· < key)`; an empty suffix is
the end iterator. -/
def is_connected (g : graph N E) (src dst : N) : Except String Bool :=
  if src ∉ g.nodes ∨ dst ∉ g.nodes then
    .error "Cannot call gdwg::graph<N, E>::is_connected if src or dst node don't exist in the graph"
  else
    let min_edge : edge_type N E := ⟨src, dst, g.min_weight⟩
    let max_edge : edge_type N E := ⟨src, dst, g.max_weight⟩
    match g.all_edges.dropWhile (fun e => decide (e < min_edge)) with
    | [] => .ok false
    | e :: _ => .ok (decide (min_edge ≤ e) && decide (e ≤ max_edge))

/-- `weights(src, dst)`: throws if an endpoint is missing; reads the
half-open range `[lower_bound({src, dst, min_weight_}),
upper_bound({src, dst, max_weight_}))` of the ordered edge set — on the
sorted list, the run of edges from the first one `≥` the low key while they
stay `≤` the high key — and returns the weights in that range. -/
def weights (g : graph N E) (src dst : N) : Except String (List E) :=
  if src ∉ g.nodes ∨ dst ∉ g.nodes then
    .error "Cannot call gdwg::graph<N, E>::weights if src or dst node don't exist in the graph"
  else
    let edge_from : edge_type N E := ⟨src, dst, g.min_weight⟩
    let edge_to : edge_type N E := ⟨src, dst, g.max_weight⟩
    .ok (((g.all_edges.dropWhile (fun e => decide (e < edge_from))).takeWhile
        (fun e => decide (¬ edge_to < e))).map edge_type.weight)

/-- `find(src, dst, weight)`: `set::find` on the edge store — no node
existence check.  The returned iterator is modelled by `Option`: `some` of
the found edge, or `none` for the end iterator. -/
def find (g : graph N E) (src dst : N) (weight : E) : Option (edge_type N E) :=
  g.all_edges.find? (fun e => decide (e = ⟨src, dst, weight⟩))

/-- `connections(src)`: throws if `src` is missing; scans the contiguous run
of edges bounded by the synthetic keys `{src, *nodes_.begin(), min_weight_}`
and `{src, *nodes_.rbegin(), max_weight_}` and collects the destinations
into an ordered set. -/
def connections (g : graph N E) (src : N) : Except String (List N) :=
  if src ∉ g.nodes then
    .error "Cannot call gdwg::graph<N, E>::connections if src doesn't exist in the graph"
  else
    match g.nodes with
    | [] => .ok []
    | n0 :: rest =>
      let max_node := (n0 :: rest).getLast (List.cons_ne_nil n0 rest)
      let edge_from : edge_type N E := ⟨src, n0, g.min_weight⟩
      let edge_to : edge_type N E := ⟨src, max_node, g.max_weight⟩
      .ok (((g.all_edges.dropWhile (fun e => decide (e < edge_from))).takeWhile
          (fun e => decide (¬ edge_to < e))).foldl
        (fun acc e => setInsert e.dst acc) [])

/-- `operator==`: sizes of both stores, then element-wise value equality in
order (`ranges::equal` of two equal-length sorted sequences is list
equality). -/
def graphEq (g h : graph N E) : Bool :=
  if g.all_edges.length ≠ h.all_edges.length ∨ g.nodes.length ≠ h.nodes.length
  then false
  else decide (g.nodes = h.nodes) && decide (g.all_edges = h.all_edges)

/-- One printed edge line of the extractor:
`os << fmt::format("  {} | {}\n", *(edge.dst), *(edge.weight))`. -/
def edge_line [ToString N] [ToString E] (e : edge_type N E) : String :=
  "  " ++ toString e.dst ++ " | " ++ toString e.weight ++ "\n"

/-- The node loop of the extractor `operator<<`.  The scan cursor `it_begin`
(the remaining suffix of the ascending edge list) is carried across
iterations; for each node the block of outgoing edges is the run from the
first edge with `src >= node` up to the first with `src > node`. -/
def dump_blocks [ToString N] [ToString E] :
    List N → List (edge_type N E) → String
  | [], _ => ""
  | n :: ns, es =>
      let es_ge := es.dropWhile (fun e => decide (e.src < n))
      let block := es_ge.takeWhile (fun e => decide (¬ n < e.src))
      toString n ++ " (\n" ++ String.join (block.map edge_line) ++ ")\n"
        ++ dump_blocks ns es_ge

/-- The extractor `operator<<`: nothing for an empty graph, otherwise one
block per node in ascending order. -/
def ostream_dump [ToString N] [ToString E] (g : graph N E) : String :=
  if g.empty then "" else dump_blocks g.nodes g.all_edges

/-- Move construction `graph(graph&& other)`: the constructor body moves
`nodes_` and `all_edges_` only; the freshly constructed object's
`min_weight_` / `max_weight_` stay default-initialized. -/
def move_ctor_to [Inhabited E] (g : graph N E) : graph N E :=
  { all_edges := g.all_edges, nodes := g.nodes,
    min_weight := default, max_weight := default }

/-- The moved-from graph of a move construction or move assignment: its two
containers are left empty; its scalar members are untouched. -/
def moved_from (g : graph N E) : graph N E :=
  { g with all_edges := [], nodes := [] }

/-- Move assignment `target = std::move(source)`: the two containers
transfer; the assignment body does not copy `min_weight_` / `max_weight_`,
so the target keeps its own previous bounds. -/
def move_assign_to (target source : graph N E) : graph N E :=
  { target with all_edges := source.all_edges, nodes := source.nodes }

/-- The state observed by a caller after `insert_edge`, catching the
exception: a throw happens before any mutation, so the state is unchanged. -/
def insert_edge_run (g : graph N E) (src dst : N) (weight : E) : graph N E :=
  match insert_edge g src dst weight with
  | .ok p => p.2
  | .error _ => g

/-- Post-state of `erase_edge(src, dst, weight)`, catching the exception. -/
def erase_edge_run (g : graph N E) (src dst : N) (weight : E) : graph N E :=
  match erase_edge g src dst weight with
  | .ok p => p.2
  | .error _ => g

/-- Post-state of `replace_node`, catching the exception. -/
def replace_node_run (g : graph N E) (old_data new_data : N) : graph N E :=
  match replace_node g old_data new_data with
  | .ok p => p.2
  | .error _ => g

/-- Post-state of `merge_replace_node`, catching the exception. -/
def merge_replace_node_run (g : graph N E) (old_data new_data : N) : graph N E :=
  match merge_replace_node g old_data new_data with
  | .ok g2 => g2
  | .error _ => g

/-- Copy construction `graph(graph const& other)`: re-insert every node of
`other` (in ascending order), then re-insert every edge (in ascending
order).  `insert_edge` cannot throw there because the source graph's edges
only mention nodes of the source (referential integrity); the recovering
runner models the call. -/
def copy_ctor [Inhabited E] (g : graph N E) : graph N E :=
  let g1 := g.nodes.foldl (fun acc n => (acc.insert_node n).2) init
  g.all_edges.foldl (fun acc e => insert_edge_run acc e.src e.dst e.weight) g1

/-- The graph states reachable through the public interface, starting from a
default-constructed graph.  The flag is `true` when move construction and
move assignment are among the allowed operations, so `Reach false` covers
exactly the states produced without moves; every `Reach false` state is also
a `Reach true` state.

Not listed because they reach nothing new: the initializer-list and range
constructors (they repeat `insert_node` / `insert_edge` from a default
constructed graph), copy construction and copy assignment (they repeat
`clear`, `insert_node` and `insert_edge`; see `reach_copy_ctor`),
`erase_edge(i, s)` (repeats single-iterator erase), and the operations that
throw or return without mutating. -/
inductive Reach [Inhabited E] : Bool → graph N E → Prop
  | init (mv : Bool) : Reach mv init
  | insert_node (mv : Bool) (g : graph N E) (v : N) :
      Reach mv g → Reach mv (g.insert_node v).2
  | insert_edge (mv : Bool) (g : graph N E) (s d : N) (w : E) :
      Reach mv g → Reach mv (g.insert_edge_run s d w)
  | erase_node (mv : Bool) (g : graph N E) (v : N) :
      Reach mv g → Reach mv (g.erase_node v).2
  | erase_edge (mv : Bool) (g : graph N E) (s d : N) (w : E) :
      Reach mv g → Reach mv (g.erase_edge_run s d w)
  | erase_edge_at (mv : Bool) (g : graph N E) (e : edge_type N E) :
      Reach mv g → e ∈ g.all_edges → Reach mv (g.erase_edge_at e)
  | replace_node (mv : Bool) (g : graph N E) (o n : N) :
      Reach mv g → Reach mv (g.replace_node_run o n)
  | merge_replace_node (mv : Bool) (g : graph N E) (o n : N) :
      Reach mv g → Reach mv (g.merge_replace_node_run o n)
  | clear (mv : Bool) (g : graph N E) : Reach mv g → Reach mv g.clear
  | move_ctor_to (g : graph N E) :
      Reach true g → Reach true g.move_ctor_to
  | moved_from (g : graph N E) :
      Reach true g → Reach true g.moved_from
  | move_assign_to (t s : graph N E) :
      Reach true t → Reach true s → Reach true (t.move_assign_to s)

/-- The node store is strictly ascending (`std::set` order invariant). -/
def NodesOrdered (g : graph N E) : Prop :=
  g.nodes.Sorted (· < ·)

/-- The edge store is strictly ascending in the (src, dst, weight) order. -/
def EdgesOrdered (g : graph N E) : Prop :=
  g.all_edges.Sorted (· < ·)

/-- Referential integrity: both endpoints of every stored edge are nodes. -/
def RefIntegrity (g : graph N E) : Prop :=
  ∀ e ∈ g.all_edges, e.src ∈ g.nodes ∧ e.dst ∈ g.nodes

/-- The running bounds cover every weight currently stored. -/
def BoundsCover (g : graph N E) : Prop :=
  ∀ e ∈ g.all_edges, g.min_weight ≤ e.weight ∧ e.weight ≤ g.max_weight

/-- The structural part of the class invariant. -/
def WellFormed (g : graph N E) : Prop :=
  NodesOrdered g ∧ EdgesOrdered g ∧ RefIntegrity g

instance (g : graph N E) : Decidable (NodesOrdered g) :=
  List.decidableSorted _

instance (g : graph N E) : Decidable (EdgesOrdered g) :=
  List.decidableSorted _

instance (g : graph N E) : Decidable (RefIntegrity g) :=
  List.decidableBAll _ _

instance (g : graph N E) : Decidable (BoundsCover g) :=
  List.decidableBAll _ _

instance (g : graph N E) : Decidable (WellFormed g) :=
  inferInstanceAs (Decidable (_ ∧ _ ∧ _))

/-- Concrete runs used to evaluate the operations on explicit inputs.
`List Char` stands for the `std::string` weights of the scenarios (its
kernel-computable total order is the same lexicographic one). -/
def catw : List Char := ['c', 'a', 't']

/-- `graph<int, std::string>` with nodes 1, 2, 3 and no edges. -/
def ex_base3 : graph Int (List Char) :=
  (((init.insert_node 1).2.insert_node 2).2.insert_node 3).2

/-- Nodes 1, 2, 3 with edges (1,1), (1,2), (2,1), all of weight "w". -/
def ex_refint : graph Int (List Char) :=
  ((ex_base3.insert_edge_run 1 1 ['w']).insert_edge_run 1 2 ['w']).insert_edge_run
    2 1 ['w']

/-- Nodes 1, 2, 3 with edges (1,1,"cat"), (1,2,"cat"), (2,2,"cat"). -/
def ex_merge : graph Int (List Char) :=
  ((ex_base3.insert_edge_run 1 1 catw).insert_edge_run 1 2 catw).insert_edge_run
    2 2 catw

/-- Nodes 1, 2 and no edges. -/
def ex_b0 : graph Int (List Char) :=
  ((init.insert_node 1).2.insert_node 2).2

/-- `ex_b0` after `insert_edge(1, 2, "b")`. -/
def ex_b1 : graph Int (List Char) := ex_b0.insert_edge_run 1 2 ['b']

/-- `ex_b1` after `erase_edge(1, 2, "b")` — edge store empty again. -/
def ex_b2 : graph Int (List Char) := ex_b1.erase_edge_run 1 2 ['b']

/-- `ex_b2` after `insert_edge(1, 2, "a")`. -/
def ex_b3 : graph Int (List Char) := ex_b2.insert_edge_run 1 2 ['a']

/-- Nodes 1, 2 with the single edge (1, 2, "cat"). -/
def ex_mv1 : graph Int (List Char) := ex_b0.insert_edge_run 1 2 catw

/-- The graph move-constructed from `ex_mv1`. -/
def ex_moved : graph Int (List Char) := ex_mv1.move_ctor_to

/-- The extractor scenario: edges (4,1,-4), (2,1,1), (1,5,-1) and the
isolated node 64. -/
def ex_dump : graph Int Int :=
  (((((((((init.insert_node 4).2.insert_node 1).2.insert_node 2).2.insert_node
      5).2.insert_node 64).2.insert_edge_run 4 1 (-4)).insert_edge_run 2 1
      1).insert_edge_run 1 5 (-1)))

end graph

namespace edge_type

variable {N E : Type} [LinearOrder N] [LinearOrder E]

/-- The order of the instance is exactly the source's `operator<`:

    if (*a.src == *b.src) {
      if (*a.dst == *b.dst) { return *a.weight < *b.weight; }
      return *a.dst < *b.dst;
    }
    return *a.src < *b.src;
-/
theorem lt_char (a b : edge_type N E) :
    a < b ↔
      (if a.src = b.src then
        (if a.dst = b.dst then a.weight < b.weight else a.dst < b.dst)
      else a.src < b.src) := by
  show key a < key b ↔ _
  rw [key, key, Prod.Lex.lt_iff]
  by_cases h1 : a.src = b.src
  · by_cases h2 : a.dst = b.dst
    · simp [h1, h2, Prod.Lex.lt_iff]
    · simp [h1, h2, Prod.Lex.lt_iff, lt_irrefl]
  · simp [h1, Prod.Lex.lt_iff]

/-- The order of the instance agrees with the source's `operator<=`
(`a < b or a == b`). -/
theorem le_char (a b : edge_type N E) : a ≤ b ↔ (a < b ∨ a = b) :=
  le_iff_lt_or_eq

theorem lt_src_le {a b : edge_type N E} (h : a < b) : a.src ≤ b.src := by
  rw [lt_char] at h
  by_cases h1 : a.src = b.src
  · exact le_of_eq h1
  · simp only [h1, if_false] at h
    exact le_of_lt h

theorem lt_of_src_lt {a b : edge_type N E} (h : a.src < b.src) : a < b := by
  rw [lt_char]
  simp [ne_of_lt h, h]

theorem lt_of_fields {a b : edge_type N E} (hs : a.src = b.src)
    (hd : a.dst = b.dst) (hw : a.weight < b.weight) : a < b := by
  rw [lt_char]
  simp [hs, hd, hw]

theorem le_src_le {a b : edge_type N E} (h : a ≤ b) : a.src ≤ b.src := by
  rcases h.lt_or_eq with h | h
  · exact lt_src_le h
  · rw [h]

theorem le_dst_le {a b : edge_type N E} (h : a ≤ b) (hs : a.src = b.src) :
    a.dst ≤ b.dst := by
  rcases h.lt_or_eq with h | h
  · rw [lt_char, if_pos hs] at h
    by_cases hd : a.dst = b.dst
    · exact le_of_eq hd
    · rw [if_neg hd] at h
      exact le_of_lt h
  · rw [h]

theorem le_weight_le {a b : edge_type N E} (h : a ≤ b) (hs : a.src = b.src)
    (hd : a.dst = b.dst) : a.weight ≤ b.weight := by
  rcases h.lt_or_eq with h | h
  · rw [lt_char, if_pos hs, if_pos hd] at h
    exact le_of_lt h
  · rw [h]

theorem le_of_parts {a b : edge_type N E} (hs : a.src = b.src)
    (hd : a.dst = b.dst) (hw : a.weight ≤ b.weight) : a ≤ b := by
  rcases hw.lt_or_eq with hw | hw
  · exact le_of_lt (lt_of_fields hs hd hw)
  · cases a
    cases b
    simp_all

/-- An edge lies between the two synthetic bounding keys
`{src, dst, mn}` and `{src, dst, mx}` iff its endpoints are exactly
`(src, dst)` and its weight lies in `[mn, mx]`. -/
theorem between_keys_iff {s d : N} {mn mx : E} {e : edge_type N E} :
    ((⟨s, d, mn⟩ : edge_type N E) ≤ e ∧ e ≤ ⟨s, d, mx⟩) ↔
      (e.src = s ∧ e.dst = d ∧ mn ≤ e.weight ∧ e.weight ≤ mx) := by
  constructor
  · rintro ⟨h1, h2⟩
    have hs : e.src = s :=
      le_antisymm (le_src_le h2) (le_src_le h1)
    have hd : e.dst = d :=
      le_antisymm (le_dst_le h2 hs) (le_dst_le h1 hs.symm)
    exact ⟨hs, hd,
      le_weight_le h1 hs.symm hd.symm,
      le_weight_le h2 hs hd⟩
  · rintro ⟨hs, hd, h1, h2⟩
    exact ⟨le_of_parts hs.symm hd.symm h1, le_of_parts hs hd h2⟩

end edge_type

section SortedSetHelpers

variable {α : Type} [LinearOrder α]

theorem mem_setInsert {a b : α} : ∀ {l : List α},
    b ∈ setInsert a l ↔ b = a ∨ b ∈ l := by
  intro l
  induction l with
  | nil => simp [setInsert]
  | cons x xs ih =>
      by_cases h1 : a < x
      · simp [setInsert, h1]
      · by_cases h2 : a = x
        · rw [setInsert, if_neg h1, if_pos h2]
          constructor
          · intro h
            exact Or.inr h
          · rintro (rfl | h)
            · simp [h2]
            · exact h
        · rw [setInsert, if_neg h1, if_neg h2]
          simp only [List.mem_cons, ih]
          tauto

theorem sorted_setInsert {a : α} : ∀ {l : List α},
    l.Sorted (· < ·) → (setInsert a l).Sorted (· < ·) := by
  intro l
  induction l with
  | nil => simp [setInsert]
  | cons x xs ih =>
      intro hs
      rw [List.sorted_cons] at hs
      by_cases h1 : a < x
      · rw [setInsert, if_pos h1]
        rw [List.sorted_cons]
        refine ⟨?_, ?_⟩
        · intro b hb
          rcases List.mem_cons.1 hb with rfl | hb
          · exact h1
          · exact lt_trans h1 (hs.1 b hb)
        · rw [List.sorted_cons]
          exact hs
      · by_cases h2 : a = x
        · rw [setInsert, if_neg h1, if_pos h2]
          rw [List.sorted_cons]
          exact hs
        · rw [setInsert, if_neg h1, if_neg h2]
          rw [List.sorted_cons]
          refine ⟨?_, ih hs.2⟩
          intro b hb
          rcases mem_setInsert.1 hb with rfl | hb
          · rcases lt_trichotomy b x with h | h | h
            · exact absurd h h1
            · exact absurd h h2
            · exact h
          · exact hs.1 b hb

theorem setInsert_append {a : α} : ∀ {l : List α},
    (∀ x ∈ l, x < a) → setInsert a l = l ++ [a] := by
  intro l
  induction l with
  | nil => simp [setInsert]
  | cons x xs ih =>
      intro h
      have hx : x < a := h x (by simp)
      rw [setInsert, if_neg (not_lt_of_gt hx), if_neg (ne_of_gt hx),
        List.cons_append, ih (fun y hy => h y (List.mem_cons_of_mem _ hy))]

theorem length_setInsert_le {a : α} : ∀ {l : List α},
    (setInsert a l).length ≤ l.length + 1 := by
  intro l
  induction l with
  | nil => simp [setInsert]
  | cons x xs ih =>
      by_cases h1 : a < x
      · rw [setInsert, if_pos h1]
        simp
      · by_cases h2 : a = x
        · rw [setInsert, if_neg h1, if_pos h2]
          simp
        · rw [setInsert, if_neg h1, if_neg h2]
          simp only [List.length_cons]
          omega

theorem mem_setErase {a b : α} {l : List α} :
    b ∈ setErase a l ↔ b ∈ l ∧ b ≠ a := by
  simp [setErase, List.mem_filter]

theorem sorted_setErase {a : α} {l : List α}
    (h : l.Sorted (· < ·)) : (setErase a l).Sorted (· < ·) :=
  h.sublist (List.filter_sublist l)

theorem length_setErase_le {a : α} {l : List α} :
    (setErase a l).length ≤ l.length :=
  List.length_filter_le _ l

/-- On a sorted list the elements below a key form a prefix, so
`lower_bound` (drop while less) coincides with filtering. -/
theorem dropWhile_lt_eq_filter {k : α} : ∀ {l : List α}, l.Sorted (· < ·) →
    l.dropWhile (fun x => decide (x < k)) = l.filter (fun x => decide (¬ x < k)) := by
  intro l
  induction l with
  | nil => simp
  | cons x l ih =>
      intro h
      rw [List.sorted_cons] at h
      by_cases hx : x < k
      · rw [List.dropWhile_cons, if_pos (by simpa using hx), List.filter_cons,
          if_neg (by simpa using hx)]
        exact ih h.2
      · rw [List.dropWhile_cons, if_neg (by simpa using hx), List.filter_cons,
          if_pos (by simpa using hx)]
        rw [List.filter_eq_self.2]
        intro y hy
        have hxy : x < y := h.1 y hy
        simp only [decide_eq_true_iff]
        intro hc
        exact hx (lt_trans hxy hc)

/-- On a sorted list the elements not above a key form a prefix, so taking
while not greater coincides with filtering. -/
theorem takeWhile_le_eq_filter {k : α} : ∀ {l : List α}, l.Sorted (· < ·) →
    l.takeWhile (fun x => decide (¬ k < x)) = l.filter (fun x => decide (¬ k < x)) := by
  intro l
  induction l with
  | nil => simp
  | cons x l ih =>
      intro h
      rw [List.sorted_cons] at h
      by_cases hx : k < x
      · rw [List.takeWhile_cons, if_neg (by simpa using hx), List.filter_cons,
          if_neg (by simpa using hx)]
        symm
        rw [List.filter_eq_nil_iff]
        intro y hy
        have hxy : x < y := h.1 y hy
        simp only [decide_eq_true_iff]
        intro hc
        exact hc (lt_trans hx hxy)
      · rw [List.takeWhile_cons, if_pos (by simpa using hx), List.filter_cons,
          if_pos (by simpa using hx), ih h.2]

end SortedSetHelpers

section ScanHelpers

variable {α : Type}

/-- `dropWhile` is a filter when the predicate is downward closed along the
list (once it turns false it stays false). -/
theorem dropWhile_eq_filter_not {p : α → Bool} : ∀ {l : List α},
    l.Pairwise (fun a b => p b = true → p a = true) →
    l.dropWhile p = l.filter (fun x => ! p x) := by
  intro l
  induction l with
  | nil => simp
  | cons x l ih =>
      intro h
      rw [List.pairwise_cons] at h
      cases hx : p x
      · rw [List.dropWhile_cons, if_neg (by simp [hx]), List.filter_cons,
          if_pos (by simp [hx])]
        rw [List.filter_eq_self.2]
        intro y hy
        cases hy2 : p y
        · simp
        · exact absurd (h.1 y hy hy2) (by simp [hx])
      · rw [List.dropWhile_cons, if_pos (by simp [hx]), List.filter_cons,
          if_neg (by simp [hx])]
        exact ih h.2

/-- `takeWhile` is a filter when the predicate is upward closed along the
list (once it turns false it stays false on the rest). -/
theorem takeWhile_eq_filter {p : α → Bool} : ∀ {l : List α},
    l.Pairwise (fun a b => p a = false → p b = false) →
    l.takeWhile p = l.filter p := by
  intro l
  induction l with
  | nil => simp
  | cons x l ih =>
      intro h
      rw [List.pairwise_cons] at h
      cases hx : p x
      · rw [List.takeWhile_cons, if_neg (by simp [hx]), List.filter_cons,
          if_neg (by simp [hx])]
        symm
        rw [List.filter_eq_nil_iff]
        intro y hy
        rw [h.1 y hy hx]
        simp
      · rw [List.takeWhile_cons, if_pos (by simp [hx]), List.filter_cons,
          if_pos (by simp [hx]), ih h.2]

theorem string_join_cons (s : String) (L : List String) :
    String.join (s :: L) = s ++ String.join L := by
  apply String.ext
  simp [String.join_eq]

theorem nodup_subset_length_le [DecidableEq α] {l1 l2 : List α}
    (h1 : l1.Nodup) (hsub : l1 ⊆ l2) : l1.length ≤ l2.length :=
  calc l1.length = l1.toFinset.card := (List.toFinset_card_of_nodup h1).symm
    _ ≤ l2.toFinset.card :=
        Finset.card_le_card
          (fun x hx => List.mem_toFinset.2 (hsub (List.mem_toFinset.1 hx)))
    _ ≤ l2.length := List.toFinset_card_le l2

/-- `set::find` by value on a list: the first (hence only) element equal to
the key, if present. -/
theorem find_self_eq [DecidableEq α] (t : α) : ∀ (l : List α),
    l.find? (fun x => decide (x = t)) = if t ∈ l then some t else none := by
  intro l
  induction l with
  | nil => simp
  | cons x l ih =>
      by_cases hx : x = t
      · subst hx
        rw [List.find?_cons_of_pos _ (by simp), if_pos (List.mem_cons_self x l)]
      · rw [List.find?_cons_of_neg _ (by simp [hx]), ih]
        by_cases ht : t ∈ l
        · rw [if_pos ht, if_pos (List.mem_cons_of_mem x ht)]
        · have hnc : t ∉ x :: l := by
            simp only [List.mem_cons]
            rintro (h | h)
            · exact hx h.symm
            · exact ht h
          rw [if_neg ht, if_neg hnc]

end ScanHelpers

section SortedSetHelpers2

variable {α : Type} [LinearOrder α]

/-- Head of a sorted list is its minimum. -/
theorem sorted_head_le {x : α} {l : List α} (h : (x :: l).Sorted (· < ·))
    {y : α} (hy : y ∈ x :: l) : x ≤ y := by
  rcases List.mem_cons.1 hy with rfl | hy
  · exact le_refl y
  · rw [List.sorted_cons] at h
    exact le_of_lt (h.1 y hy)

end SortedSetHelpers2

namespace graph

variable {N E : Type} [LinearOrder N] [LinearOrder E]

section Preservation

variable {g : graph N E}

theorem wellFormed_init [Inhabited E] : WellFormed (init : graph N E) := by
  refine ⟨?_, ?_, ?_⟩ <;> simp [init, NodesOrdered, EdgesOrdered, RefIntegrity]

theorem boundsCover_init [Inhabited E] : BoundsCover (init : graph N E) := by
  intro e he
  simp [init] at he

theorem wellFormed_insert_node (h : WellFormed g) (v : N) :
    WellFormed (g.insert_node v).2 := by
  unfold insert_node
  by_cases hv : v ∈ g.nodes
  · simpa [hv] using h
  · obtain ⟨h1, h2, h3⟩ := h
    refine ⟨?_, ?_, ?_⟩
    · simp only [hv, if_false]
      exact sorted_setInsert h1
    · simpa [hv] using h2
    · intro e he
      simp only [hv, if_false] at he ⊢
      obtain ⟨hs, hd⟩ := h3 e he
      exact ⟨mem_setInsert.2 (Or.inr hs), mem_setInsert.2 (Or.inr hd)⟩

theorem boundsCover_insert_node (h : BoundsCover g) (v : N) :
    BoundsCover (g.insert_node v).2 := by
  unfold insert_node
  by_cases hv : v ∈ g.nodes <;> simp only [hv, if_true, if_false] <;>
    exact fun e he => h e he

theorem update_weight_limits_nodes (w : E) :
    (g.update_weight_limits w).nodes = g.nodes := by
  simp only [update_weight_limits]
  split_ifs <;> rfl

theorem update_weight_limits_edges (w : E) :
    (g.update_weight_limits w).all_edges = g.all_edges := by
  simp only [update_weight_limits]
  split_ifs <;> rfl

theorem update_weight_limits_min (w : E) :
    (g.update_weight_limits w).min_weight = min g.min_weight w := by
  simp only [update_weight_limits]
  split_ifs with h1 h2 h3
  · exact (min_eq_right (le_of_lt h2)).symm
  · exact (min_eq_left (not_lt.1 h2)).symm
  · exact (min_eq_right (le_of_lt h3)).symm
  · exact (min_eq_left (not_lt.1 h3)).symm

theorem update_weight_limits_max (w : E) :
    (g.update_weight_limits w).max_weight = max g.max_weight w := by
  simp only [update_weight_limits]
  split_ifs with h1 h2 h3
  · exact (max_eq_right (le_of_lt h1)).symm
  · exact (max_eq_right (le_of_lt h1)).symm
  · exact (max_eq_left (not_lt.1 h1)).symm
  · exact (max_eq_left (not_lt.1 h1)).symm

/-- `insert_edge` on an already-present exact edge: false, graph unchanged. -/
theorem insert_edge_dup {src dst : N} {w : E}
    (hs : src ∈ g.nodes) (hd : dst ∈ g.nodes)
    (hmem : (⟨src, dst, w⟩ : edge_type N E) ∈ g.all_edges) :
    g.insert_edge src dst w = .ok (false, g) := by
  have hne : g.all_edges ≠ [] := by
    intro h0
    rw [h0] at hmem
    exact absurd hmem (List.not_mem_nil _)
  simp [insert_edge, hs, hd, hne, hmem]

/-- `insert_edge` on a fresh edge: true, edge emplaced, bounds updated
(initialized to the inserted weight when the edge store was empty). -/
theorem insert_edge_new {src dst : N} {w : E}
    (hs : src ∈ g.nodes) (hd : dst ∈ g.nodes)
    (hmem : (⟨src, dst, w⟩ : edge_type N E) ∉ g.all_edges) :
    g.insert_edge src dst w = .ok (true, g.insert_edge_run src dst w) ∧
    (g.insert_edge_run src dst w).nodes = g.nodes ∧
    (g.insert_edge_run src dst w).all_edges
      = setInsert ⟨src, dst, w⟩ g.all_edges ∧
    (g.all_edges = [] →
      (g.insert_edge_run src dst w).min_weight = w ∧
      (g.insert_edge_run src dst w).max_weight = w) ∧
    (g.all_edges ≠ [] →
      (g.insert_edge_run src dst w).min_weight = min g.min_weight w ∧
      (g.insert_edge_run src dst w).max_weight = max g.max_weight w) := by
  by_cases h0 : g.all_edges = []
  · simp [insert_edge, insert_edge_run, h0, hs, hd, update_weight_limits_nodes,
      update_weight_limits_edges, update_weight_limits_min, update_weight_limits_max]
  · simp [insert_edge, insert_edge_run, h0, hs, hd, hmem, update_weight_limits_nodes,
      update_weight_limits_edges, update_weight_limits_min, update_weight_limits_max]

/-- `insert_edge` with a missing endpoint throws. -/
theorem insert_edge_err {src dst : N} {w : E}
    (hn : ¬ (src ∈ g.nodes ∧ dst ∈ g.nodes)) :
    g.insert_edge src dst w =
      .error "Cannot call gdwg::graph<N, E>::insert_edge when either src or dst node does not exist" := by
  unfold insert_edge
  rw [if_pos (by tauto)]

theorem wellFormed_insert_edge_run (h : WellFormed g) (s d : N) (w : E) :
    WellFormed (g.insert_edge_run s d w) := by
  by_cases hn : s ∈ g.nodes ∧ d ∈ g.nodes
  · by_cases hmem : (⟨s, d, w⟩ : edge_type N E) ∈ g.all_edges
    · unfold insert_edge_run
      rw [insert_edge_dup hn.1 hn.2 hmem]
      exact h
    · obtain ⟨_, hnodes, hedges, _, _⟩ := insert_edge_new hn.1 hn.2 hmem
      obtain ⟨h1, h2, h3⟩ := h
      refine ⟨?_, ?_, ?_⟩
      · rw [NodesOrdered, hnodes]
        exact h1
      · rw [EdgesOrdered, hedges]
        exact sorted_setInsert h2
      · intro e he
        rw [hedges] at he
        rw [hnodes]
        rcases mem_setInsert.1 he with rfl | he
        · exact ⟨hn.1, hn.2⟩
        · exact h3 e he
  · unfold insert_edge_run
    rw [insert_edge_err hn]
    exact h

theorem boundsCover_insert_edge_run (h : BoundsCover g) (s d : N) (w : E) :
    BoundsCover (g.insert_edge_run s d w) := by
  by_cases hn : s ∈ g.nodes ∧ d ∈ g.nodes
  · by_cases hmem : (⟨s, d, w⟩ : edge_type N E) ∈ g.all_edges
    · unfold insert_edge_run
      rw [insert_edge_dup hn.1 hn.2 hmem]
      exact h
    · obtain ⟨_, _, hedges, hinit, hupd⟩ := insert_edge_new hn.1 hn.2 hmem
      intro e he
      rw [hedges] at he
      by_cases h0 : g.all_edges = []
      · obtain ⟨hmin, hmax⟩ := hinit h0
        rcases mem_setInsert.1 he with rfl | he
        · simp [hmin, hmax]
        · rw [h0] at he
          exact absurd he (List.not_mem_nil _)
      · obtain ⟨hmin, hmax⟩ := hupd h0
        rcases mem_setInsert.1 he with rfl | he
        · rw [hmin, hmax]
          exact ⟨min_le_right _ _, le_max_right _ _⟩
        · obtain ⟨h4, h5⟩ := h e he
          rw [hmin, hmax]
          exact ⟨le_trans (min_le_left _ _) h4, le_trans h5 (le_max_left _ _)⟩
  · unfold insert_edge_run
    rw [insert_edge_err hn]
    exact h

theorem wellFormed_erase_node (h : WellFormed g) (v : N) :
    WellFormed (g.erase_node v).2 := by
  unfold erase_node
  by_cases hv : v ∈ g.nodes
  · rw [if_neg (by simpa using hv)]
    obtain ⟨h1, h2, h3⟩ := h
    refine ⟨sorted_setErase h1, h2.sublist (List.filter_sublist _), ?_⟩
    intro e he
    rw [List.mem_filter] at he
    obtain ⟨he, hcond⟩ := he
    rw [decide_eq_true_iff] at hcond
    push_neg at hcond
    obtain ⟨hs, hd⟩ := h3 e he
    exact ⟨mem_setErase.2 ⟨hs, hcond.1⟩, mem_setErase.2 ⟨hd, hcond.2⟩⟩
  · rw [if_pos (by simpa using hv)]
    exact h

theorem boundsCover_erase_node (h : BoundsCover g) (v : N) :
    BoundsCover (g.erase_node v).2 := by
  unfold erase_node
  by_cases hv : v ∈ g.nodes
  · rw [if_neg (by simpa using hv)]
    intro e he
    rw [List.mem_filter] at he
    exact h e he.1
  · rw [if_pos (by simpa using hv)]
    exact h

theorem wellFormed_erase_edge_at (h : WellFormed g) (e : edge_type N E) :
    WellFormed (g.erase_edge_at e) := by
  obtain ⟨h1, h2, h3⟩ := h
  refine ⟨h1, sorted_setErase h2, ?_⟩
  intro x hx
  exact h3 x (mem_setErase.1 hx).1

theorem boundsCover_erase_edge_at (h : BoundsCover g) (e : edge_type N E) :
    BoundsCover (g.erase_edge_at e) := by
  intro x hx
  exact h x (mem_setErase.1 hx).1

/-- Effect of `erase_edge` by value in the non-throwing cases. -/
theorem erase_edge_ok (hs : src ∈ g.nodes) (hd : dst ∈ g.nodes) (w : E) :
    (⟨src, dst, w⟩ ∉ g.all_edges →
      g.erase_edge src dst w = .ok (false, g)) ∧
    (⟨src, dst, w⟩ ∈ g.all_edges →
      g.erase_edge src dst w = .ok (true, g.erase_edge_at ⟨src, dst, w⟩)) := by
  unfold erase_edge erase_edge_at
  rw [if_neg (by simp [hs, hd])]
  constructor
  · intro hmem
    rw [if_pos (by simpa using hmem)]
  · intro hmem
    rw [if_neg (by simpa using hmem)]

theorem wellFormed_erase_edge_run (h : WellFormed g) (s d : N) (w : E) :
    WellFormed (g.erase_edge_run s d w) := by
  unfold erase_edge_run erase_edge
  by_cases hn : s ∈ g.nodes ∧ d ∈ g.nodes
  · rw [if_neg (by tauto)]
    by_cases hmem : (⟨s, d, w⟩ : edge_type N E) ∈ g.all_edges
    · rw [if_neg (by simpa using hmem)]
      exact wellFormed_erase_edge_at h _
    · rw [if_pos (by simpa using hmem)]
      exact h
  · rw [if_pos (by tauto)]
    exact h

theorem boundsCover_erase_edge_run (h : BoundsCover g) (s d : N) (w : E) :
    BoundsCover (g.erase_edge_run s d w) := by
  unfold erase_edge_run erase_edge
  by_cases hn : s ∈ g.nodes ∧ d ∈ g.nodes
  · rw [if_neg (by tauto)]
    by_cases hmem : (⟨s, d, w⟩ : edge_type N E) ∈ g.all_edges
    · rw [if_neg (by simpa using hmem)]
      exact boundsCover_erase_edge_at h _
    · rw [if_pos (by simpa using hmem)]
      exact h
  · rw [if_pos (by tauto)]
    exact h

theorem update_edge_weight (o n : N) (e : edge_type N E) :
    (update_edge o n e).weight = e.weight := rfl

/-- A redirected edge no longer mentions the old node. -/
theorem update_edge_not_old {o n : N} (hne : o ≠ n) (e : edge_type N E) :
    ¬ ((update_edge o n e).src = o ∨ (update_edge o n e).dst = o) := by
  unfold update_edge
  rintro (h | h)
  · by_cases hs : e.src = o
    · rw [if_pos hs] at h
      exact hne h.symm
    · rw [if_neg hs] at h
      exact hs h
  · by_cases hd : e.dst = o
    · rw [if_pos hd] at h
      exact hne h.symm
    · rw [if_neg hd] at h
      exact hd h

/-- Redirection fixes an edge that does not mention the old node. -/
theorem update_edge_id {o n : N} {e : edge_type N E}
    (h : ¬ (e.src = o ∨ e.dst = o)) : update_edge o n e = e := by
  push_neg at h
  cases e
  simp only [update_edge, h.1, if_neg, h.2]
  simp_all

theorem sorted_merge_foldl {o n : N} :
    ∀ (P A : List (edge_type N E)), A.Sorted (· < ·) →
      (P.foldl (merge_step o n) A).Sorted (· < ·) := by
  intro P
  induction P with
  | nil => intro A hA; exact hA
  | cons e P ih =>
      intro A hA
      rw [List.foldl_cons]
      apply ih
      unfold merge_step
      split
      · exact sorted_setInsert (sorted_setErase hA)
      · exact hA

/-- Membership after the merge loop over the snapshot `P` of edges starting
from the set `A`: an element survives either because it was in `A` and is
not an old-mentioning member of `P` (those get erased), or because it is
the redirected copy of an old-mentioning member of `P`. -/
theorem mem_merge_foldl {o n : N} (hne : o ≠ n) :
    ∀ (P A : List (edge_type N E)) (x : edge_type N E),
      x ∈ P.foldl (merge_step o n) A ↔
        (x ∈ A ∧ ¬ ((x.src = o ∨ x.dst = o) ∧ x ∈ P)) ∨
        (∃ e ∈ P, (e.src = o ∨ e.dst = o) ∧ update_edge o n e = x) := by
  intro P
  induction P with
  | nil => simp
  | cons e P ih =>
      intro A x
      rw [List.foldl_cons, ih]
      unfold merge_step
      by_cases hp : e.src = o ∨ e.dst = o
      · rw [if_pos hp]
        constructor
        · rintro (⟨hx, hnp⟩ | ⟨e1, he1, hq⟩)
          · rcases mem_setInsert.1 hx with rfl | hx2
            · exact Or.inr ⟨e, List.mem_cons_self e P, hp, rfl⟩
            · obtain ⟨hxA, hxe⟩ := mem_setErase.1 hx2
              refine Or.inl ⟨hxA, ?_⟩
              rintro ⟨hPx, hmem2⟩
              rcases List.mem_cons.1 hmem2 with rfl | hxP
              · exact hxe rfl
              · exact hnp ⟨hPx, hxP⟩
          · exact Or.inr ⟨e1, List.mem_cons_of_mem e he1, hq⟩
        · rintro (⟨hxA, hn2⟩ | ⟨e1, he1, hq1, hq2⟩)
          · rcases eq_or_ne x e with rfl | hxe
            · exact absurd ⟨hp, List.mem_cons_self x P⟩ hn2
            · refine Or.inl ⟨mem_setInsert.2 (Or.inr (mem_setErase.2 ⟨hxA, hxe⟩)), ?_⟩
              rintro ⟨hPx, hxP⟩
              exact hn2 ⟨hPx, List.mem_cons_of_mem e hxP⟩
          · rcases List.mem_cons.1 he1 with rfl | he1
            · refine Or.inl ⟨mem_setInsert.2 (Or.inl hq2.symm), ?_⟩
              rintro ⟨hPx, _⟩
              exact update_edge_not_old hne e1 (hq2 ▸ hPx)
            · exact Or.inr ⟨e1, he1, hq1, hq2⟩
      · rw [if_neg hp]
        constructor
        · rintro (⟨hxA, hnp⟩ | ⟨e1, he1, hq⟩)
          · refine Or.inl ⟨hxA, ?_⟩
            rintro ⟨hPx, hmem2⟩
            rcases List.mem_cons.1 hmem2 with rfl | hxP
            · exact hp hPx
            · exact hnp ⟨hPx, hxP⟩
          · exact Or.inr ⟨e1, List.mem_cons_of_mem e he1, hq⟩
        · rintro (⟨hxA, hn2⟩ | ⟨e1, he1, hq1, hq2⟩)
          · refine Or.inl ⟨hxA, ?_⟩
            rintro ⟨hPx, hxP⟩
            exact hn2 ⟨hPx, List.mem_cons_of_mem e hxP⟩
          · rcases List.mem_cons.1 he1 with rfl | he1
            · exact absurd hq1 hp
            · exact Or.inr ⟨e1, he1, hq1, hq2⟩

/-- `merge_replace_node` in the interesting case: both nodes present and
distinct. -/
theorem merge_replace_node_ok {o n : N} (ho : o ∈ g.nodes) (hn : n ∈ g.nodes)
    (hne : o ≠ n) :
    g.merge_replace_node o n = .ok (g.merge_replace_node_run o n) ∧
    (g.merge_replace_node_run o n).nodes = setErase o g.nodes ∧
    (g.merge_replace_node_run o n).all_edges
      = g.all_edges.foldl (merge_step o n) g.all_edges ∧
    (g.merge_replace_node_run o n).min_weight = g.min_weight ∧
    (g.merge_replace_node_run o n).max_weight = g.max_weight := by
  simp [merge_replace_node, merge_replace_node_run, ho, hn, hne]

/-- `merge_replace_node` is the identity run when it throws or when the two
nodes coincide. -/
theorem merge_replace_node_run_id {o n : N}
    (h : (o ∉ g.nodes ∨ n ∉ g.nodes) ∨ o = n) :
    g.merge_replace_node_run o n = g := by
  unfold merge_replace_node_run merge_replace_node
  by_cases hg : o ∉ g.nodes ∨ n ∉ g.nodes
  · rw [if_pos hg]
  · rcases h with h | h
    · exact absurd h hg
    · rw [if_neg hg, if_pos h]

/-- The edge set after a successful merge is exactly the image of the edge
set under endpoint redirection (with set-semantics deduplication). -/
theorem mem_merge_run {o n : N} (ho : o ∈ g.nodes) (hn : n ∈ g.nodes)
    (hne : o ≠ n) (x : edge_type N E) :
    x ∈ (g.merge_replace_node_run o n).all_edges ↔
      ∃ e ∈ g.all_edges, update_edge o n e = x := by
  obtain ⟨_, _, hedges, _, _⟩ := merge_replace_node_ok ho hn hne
  rw [hedges, mem_merge_foldl hne]
  constructor
  · rintro (⟨hxA, hnp⟩ | ⟨e, he, _, hq⟩)
    · refine ⟨x, hxA, update_edge_id ?_⟩
      intro hPx
      exact hnp ⟨hPx, hxA⟩
    · exact ⟨e, he, hq⟩
  · rintro ⟨e, he, rfl⟩
    by_cases hPe : e.src = o ∨ e.dst = o
    · exact Or.inr ⟨e, he, hPe, rfl⟩
    · rw [update_edge_id hPe]
      refine Or.inl ⟨he, ?_⟩
      rintro ⟨hPx, _⟩
      exact hPe hPx

theorem wellFormed_merge_replace_node_run (h : WellFormed g) (o n : N) :
    WellFormed (g.merge_replace_node_run o n) := by
  by_cases hguard : (o ∉ g.nodes ∨ n ∉ g.nodes) ∨ o = n
  · rw [merge_replace_node_run_id hguard]
    exact h
  · push_neg at hguard
    obtain ⟨⟨ho, hn⟩, hne⟩ := hguard
    obtain ⟨_, hnodes, hedges, _, _⟩ := merge_replace_node_ok ho hn hne
    obtain ⟨h1, h2, h3⟩ := h
    refine ⟨?_, ?_, ?_⟩
    · rw [NodesOrdered, hnodes]
      exact sorted_setErase h1
    · rw [EdgesOrdered, hedges]
      exact sorted_merge_foldl _ _ h2
    · intro x hx
      rw [mem_merge_run ho hn hne] at hx
      obtain ⟨e, he, rfl⟩ := hx
      obtain ⟨hes, hed⟩ := h3 e he
      rw [hnodes]
      unfold update_edge
      constructor
      · by_cases hs : e.src = o
        · rw [if_pos hs]
          exact mem_setErase.2 ⟨hn, fun hc => hne hc.symm⟩
        · rw [if_neg hs]
          exact mem_setErase.2 ⟨hes, hs⟩
      · by_cases hd : e.dst = o
        · rw [if_pos hd]
          exact mem_setErase.2 ⟨hn, fun hc => hne hc.symm⟩
        · rw [if_neg hd]
          exact mem_setErase.2 ⟨hed, hd⟩

theorem boundsCover_merge_replace_node_run (h : BoundsCover g) (o n : N) :
    BoundsCover (g.merge_replace_node_run o n) := by
  by_cases hguard : (o ∉ g.nodes ∨ n ∉ g.nodes) ∨ o = n
  · rw [merge_replace_node_run_id hguard]
    exact h
  · push_neg at hguard
    obtain ⟨⟨ho, hn⟩, hne⟩ := hguard
    obtain ⟨_, _, _, hmin, hmax⟩ := merge_replace_node_ok ho hn hne
    intro x hx
    rw [mem_merge_run ho hn hne] at hx
    obtain ⟨e, he, rfl⟩ := hx
    rw [hmin, hmax, update_edge_weight]
    exact h e he

/-- `replace_node` in its three cases. -/
theorem replace_node_cases (o n : N) :
    (o ∉ g.nodes →
      g.replace_node o n =
        .error "Cannot call gdwg::graph<N, E>::replace_node on a node that doesn't exist") ∧
    (o ∈ g.nodes → n ∈ g.nodes → g.replace_node o n = .ok (false, g)) ∧
    (o ∈ g.nodes → n ∉ g.nodes →
      g.replace_node o n =
        .ok (true,
          ({ g with nodes := setInsert n g.nodes } : graph N E).merge_replace_node_run o n)) := by
  refine ⟨?_, ?_, ?_⟩
  · intro ho
    unfold replace_node
    rw [if_pos ho]
  · intro ho hn
    unfold replace_node
    rw [if_neg (by simpa using ho), if_pos hn]
  · intro ho hn
    unfold replace_node
    rw [if_neg (by simpa using ho), if_neg hn]
    have ho2 : o ∈ (setInsert n g.nodes) := mem_setInsert.2 (Or.inr ho)
    have hn2 : n ∈ (setInsert n g.nodes) := mem_setInsert.2 (Or.inl rfl)
    have hne : o ≠ n := fun hc => hn (hc ▸ ho)
    obtain ⟨heq, _, _, _, _⟩ :=
      merge_replace_node_ok (g := { g with nodes := setInsert n g.nodes }) ho2 hn2 hne
    rw [heq]

theorem wellFormed_replace_node_run (h : WellFormed g) (o n : N) :
    WellFormed (g.replace_node_run o n) := by
  obtain ⟨hc1, hc2, hc3⟩ := replace_node_cases (g := g) o n
  unfold replace_node_run
  by_cases ho : o ∈ g.nodes
  · by_cases hn : n ∈ g.nodes
    · rw [hc2 ho hn]
      exact h
    · rw [hc3 ho hn]
      apply wellFormed_merge_replace_node_run
      obtain ⟨h1, h2, h3⟩ := h
      refine ⟨sorted_setInsert h1, h2, ?_⟩
      intro e he
      obtain ⟨hes, hed⟩ := h3 e he
      exact ⟨mem_setInsert.2 (Or.inr hes), mem_setInsert.2 (Or.inr hed)⟩
  · rw [hc1 ho]
    exact h

theorem boundsCover_replace_node_run (h : BoundsCover g) (o n : N) :
    BoundsCover (g.replace_node_run o n) := by
  obtain ⟨hc1, hc2, hc3⟩ := replace_node_cases (g := g) o n
  unfold replace_node_run
  by_cases ho : o ∈ g.nodes
  · by_cases hn : n ∈ g.nodes
    · rw [hc2 ho hn]
      exact h
    · rw [hc3 ho hn]
      exact boundsCover_merge_replace_node_run
        (g := { g with nodes := setInsert n g.nodes }) (fun e he => h e he) o n
  · rw [hc1 ho]
    exact h

theorem wellFormed_clear (h : WellFormed g) : WellFormed g.clear := by
  refine ⟨?_, ?_, ?_⟩ <;> simp [clear, NodesOrdered, EdgesOrdered, RefIntegrity]

theorem boundsCover_clear : BoundsCover g.clear := by
  intro e he
  simp [clear] at he

theorem wellFormed_move_ctor_to [Inhabited E] (h : WellFormed g) :
    WellFormed g.move_ctor_to :=
  h

theorem wellFormed_moved_from (h : WellFormed g) : WellFormed g.moved_from := by
  refine ⟨?_, ?_, ?_⟩ <;>
    simp [moved_from, NodesOrdered, EdgesOrdered, RefIntegrity]

theorem wellFormed_move_assign_to {t s : graph N E} (h : WellFormed s) :
    WellFormed (t.move_assign_to s) :=
  h

/-- Every reachable state is well formed: both stores strictly ascending and
referentially intact. -/
theorem reach_wellFormed [Inhabited E] {mv : Bool} {g : graph N E}
    (h : Reach mv g) : WellFormed g := by
  induction h with
  | init mv => exact wellFormed_init
  | insert_node mv g v _ ih => exact wellFormed_insert_node ih v
  | insert_edge mv g s d w _ ih => exact wellFormed_insert_edge_run ih s d w
  | erase_node mv g v _ ih => exact wellFormed_erase_node ih v
  | erase_edge mv g s d w _ ih => exact wellFormed_erase_edge_run ih s d w
  | erase_edge_at mv g e _ _ ih => exact wellFormed_erase_edge_at ih e
  | replace_node mv g o n _ ih => exact wellFormed_replace_node_run ih o n
  | merge_replace_node mv g o n _ ih =>
      exact wellFormed_merge_replace_node_run ih o n
  | clear mv g _ ih => exact wellFormed_clear ih
  | move_ctor_to g _ ih => exact wellFormed_move_ctor_to ih
  | moved_from g _ ih => exact wellFormed_moved_from ih
  | move_assign_to t s _ _ _ ihs => exact wellFormed_move_assign_to ihs

/-- On every state reachable without move operations, the running bounds
cover all weights currently stored (the invariant the synthetic bounding
keys of the range queries rely on). -/
theorem reach_boundsCover [Inhabited E] {mv : Bool} {g : graph N E}
    (h : Reach mv g) (hmv : mv = false) : BoundsCover g := by
  induction h with
  | init mv => exact boundsCover_init
  | insert_node mv g v _ ih => exact boundsCover_insert_node (ih hmv) v
  | insert_edge mv g s d w _ ih =>
      exact boundsCover_insert_edge_run (ih hmv) s d w
  | erase_node mv g v _ ih => exact boundsCover_erase_node (ih hmv) v
  | erase_edge mv g s d w _ ih =>
      exact boundsCover_erase_edge_run (ih hmv) s d w
  | erase_edge_at mv g e _ _ ih => exact boundsCover_erase_edge_at (ih hmv) e
  | replace_node mv g o n _ ih => exact boundsCover_replace_node_run (ih hmv) o n
  | merge_replace_node mv g o n _ ih =>
      exact boundsCover_merge_replace_node_run (ih hmv) o n
  | clear mv g _ ih => exact boundsCover_clear
  | move_ctor_to g _ ih => exact absurd hmv (by simp)
  | moved_from g _ ih => exact absurd hmv (by simp)
  | move_assign_to t s _ _ _ ihs => exact absurd hmv (by simp)

theorem reach_foldl_insert_node [Inhabited E] {mv : Bool} {b : graph N E}
    (l : List N) (h : Reach mv b) :
    Reach mv (l.foldl (fun acc n => (acc.insert_node n).2) b) := by
  induction l generalizing b with
  | nil => exact h
  | cons n l ih => exact ih (Reach.insert_node mv b n h)

theorem reach_foldl_insert_edge [Inhabited E] {mv : Bool} {b : graph N E}
    (l : List (edge_type N E)) (h : Reach mv b) :
    Reach mv (l.foldl (fun acc e => acc.insert_edge_run e.src e.dst e.weight) b) := by
  induction l generalizing b with
  | nil => exact h
  | cons e l ih => exact ih (Reach.insert_edge mv b e.src e.dst e.weight h)

/-- A copy-constructed graph only repeats reachable operations, so it is
itself a reachable state. -/
theorem reach_copy_ctor [Inhabited E] {mv : Bool} (g : graph N E) :
    Reach mv (copy_ctor g) :=
  reach_foldl_insert_edge _ (reach_foldl_insert_node _ (Reach.init mv))

end Preservation

section Queries

variable {g : graph N E} {src dst : N}

/-- Under the bounds invariant, the contiguous run between the two synthetic
bounding keys is exactly the set of edges with source `src` and destination
`dst`. -/
theorem seg_eq_filter_match (h2 : EdgesOrdered g) (hb : BoundsCover g) :
    ((g.all_edges.dropWhile
        (fun e => decide (e < (⟨src, dst, g.min_weight⟩ : edge_type N E)))).takeWhile
      (fun e => decide (¬ (⟨src, dst, g.max_weight⟩ : edge_type N E) < e)))
    = g.all_edges.filter (fun e => decide (e.src = src ∧ e.dst = dst)) := by
  rw [dropWhile_lt_eq_filter h2, takeWhile_le_eq_filter (List.Pairwise.filter _ h2),
    List.filter_filter]
  apply List.filter_congr
  intro e he
  obtain ⟨hbe1, hbe2⟩ := hb e he
  by_cases hm : e.src = src ∧ e.dst = dst
  · obtain ⟨hk1, hk2⟩ := edge_type.between_keys_iff.2 ⟨hm.1, hm.2, hbe1, hbe2⟩
    simp [hm, not_lt.2 hk1, not_lt.2 hk2]
  · have hnb : ¬ ((⟨src, dst, g.min_weight⟩ : edge_type N E) ≤ e ∧
        e ≤ (⟨src, dst, g.max_weight⟩ : edge_type N E)) := by
      intro hc
      obtain ⟨hs1, hd1, _, _⟩ := edge_type.between_keys_iff.1 hc
      exact hm ⟨hs1, hd1⟩
    rcases not_and_or.1 hnb with hcase | hcase
    · simp [hm, not_le.1 hcase]
    · simp [hm, not_le.1 hcase]

/-- `weights(src, dst)` returns exactly the weights of the edges with that
source and destination, filtered in order from the ascending edge store. -/
theorem weights_eq_filter (h2 : EdgesOrdered g) (hb : BoundsCover g)
    (hs : src ∈ g.nodes) (hd : dst ∈ g.nodes) :
    g.weights src dst = .ok ((g.all_edges.filter
      (fun e => decide (e.src = src ∧ e.dst = dst))).map edge_type.weight) := by
  unfold weights
  rw [if_neg (by simp [hs, hd])]
  exact congrArg Except.ok (congrArg (List.map edge_type.weight)
    (seg_eq_filter_match h2 hb))

/-- `is_connected(src, dst)` reports, via the single lower-bound probe,
exactly whether some edge with that source and destination exists. -/
theorem is_connected_spec (h2 : EdgesOrdered g) (hb : BoundsCover g)
    (hs : src ∈ g.nodes) (hd : dst ∈ g.nodes) :
    (g.is_connected src dst = .ok true ↔
      ∃ e ∈ g.all_edges, e.src = src ∧ e.dst = dst) ∧
    (g.is_connected src dst = .ok true ∨ g.is_connected src dst = .ok false) := by
  unfold is_connected
  rw [if_neg (by simp [hs, hd])]
  dsimp only
  rcases hseg : g.all_edges.dropWhile
      (fun e => decide (e < (⟨src, dst, g.min_weight⟩ : edge_type N E)))
    with _ | ⟨x, rest⟩
  · constructor
    · constructor
      · intro hcon
        exact absurd hcon (by simp)
      · rintro ⟨e, he, hes, hed⟩
        exfalso
        obtain ⟨hk1, _⟩ := edge_type.between_keys_iff.2 ⟨hes, hed, hb e he⟩
        have hmem : e ∈ g.all_edges.filter
            (fun e => decide (¬ e < (⟨src, dst, g.min_weight⟩ : edge_type N E))) :=
          List.mem_filter.2 ⟨he, by simpa using not_lt.2 hk1⟩
        rw [← dropWhile_lt_eq_filter h2, hseg] at hmem
        exact absurd hmem (List.not_mem_nil e)
    · right
      rfl
  · dsimp only
    have hfilt : g.all_edges.filter
        (fun e => decide (¬ e < (⟨src, dst, g.min_weight⟩ : edge_type N E)))
        = x :: rest := by
      rw [← dropWhile_lt_eq_filter h2, hseg]
    have hx_in : x ∈ g.all_edges ∧
        ¬ x < (⟨src, dst, g.min_weight⟩ : edge_type N E) := by
      have hx0 := List.mem_filter.1 (hfilt ▸ List.mem_cons_self x rest)
      simpa using hx0
    have hlox : (⟨src, dst, g.min_weight⟩ : edge_type N E) ≤ x := not_lt.1 hx_in.2
    rw [decide_eq_true hlox, Bool.true_and]
    by_cases hxhi : x ≤ (⟨src, dst, g.max_weight⟩ : edge_type N E)
    · rw [decide_eq_true hxhi]
      constructor
      · constructor
        · intro _
          obtain ⟨hs1, hd1, _, _⟩ := edge_type.between_keys_iff.1 ⟨hlox, hxhi⟩
          exact ⟨x, hx_in.1, hs1, hd1⟩
        · intro _
          rfl
      · left
        rfl
    · rw [decide_eq_false hxhi]
      constructor
      · constructor
        · intro hcon
          exact absurd hcon (by simp)
        · rintro ⟨e, he, hes, hed⟩
          exfalso
          obtain ⟨hk1, hk2⟩ := edge_type.between_keys_iff.2 ⟨hes, hed, hb e he⟩
          have hmem : e ∈ g.all_edges.filter
              (fun e => decide (¬ e < (⟨src, dst, g.min_weight⟩ : edge_type N E))) :=
            List.mem_filter.2 ⟨he, by simpa using not_lt.2 hk1⟩
          rw [hfilt] at hmem
          have hsx : (x :: rest).Sorted (· < ·) := by
            rw [← hfilt]
            exact List.Pairwise.filter _ h2
          have hxe : x ≤ e := sorted_head_le hsx hmem
          exact hxhi (le_trans hxe hk2)
      · right
        rfl

end Queries

section Dump

variable {g : graph N E}

theorem edges_src_le_pairwise {es : List (edge_type N E)}
    (h : es.Sorted (· < ·)) : es.Pairwise (fun a b => a.src ≤ b.src) :=
  List.Pairwise.imp (fun hab => edge_type.lt_src_le hab) h

/-- The node loop of the extractor prints, for each node in order, exactly
the block of its outgoing edges: scanning with the carried cursor agrees
with filtering the full edge list per node.  The membership hypothesis
allows, besides referential integrity, stale edges below every remaining
node (the part of the cursor the scan has moved past). -/
theorem dump_blocks_eq [ToString N] [ToString E] :
    ∀ (ns : List N) (es : List (edge_type N E)),
      ns.Sorted (· < ·) → es.Sorted (· < ·) →
      (∀ e ∈ es, e.src ∈ ns ∨ (∀ m ∈ ns, e.src < m)) →
      dump_blocks ns es = String.join (ns.map (fun n =>
        toString n ++ " (\n" ++
        String.join ((es.filter (fun e => decide (e.src = n))).map edge_line) ++
        ")\n")) := by
  intro ns
  induction ns with
  | nil =>
      intro es _ _ _
      rfl
  | cons n ns ih =>
      intro es hns hes hmem
      rw [List.sorted_cons] at hns
      have hpair : es.Pairwise (fun a b => a.src ≤ b.src) :=
        edges_src_le_pairwise hes
      have hgee : es.dropWhile (fun e => decide (e.src < n))
          = es.filter (fun e => ! decide (e.src < n)) := by
        apply dropWhile_eq_filter_not
        apply List.Pairwise.imp ?_ hpair
        intro a b hab hb
        rw [decide_eq_true_iff] at hb ⊢
        exact lt_of_le_of_lt hab hb
      have hblock : (es.dropWhile (fun e => decide (e.src < n))).takeWhile
            (fun e => decide (¬ n < e.src))
          = es.filter (fun e => decide (e.src = n)) := by
        rw [hgee]
        rw [takeWhile_eq_filter]
        · rw [List.filter_filter]
          apply List.filter_congr
          intro e _
          by_cases h1 : e.src = n
          · simp [h1]
          · rcases lt_or_gt_of_ne h1 with hlt | hgt
            · simp [h1, hlt]
            · simp [h1, hgt, not_lt_of_gt hgt]
        · apply List.Pairwise.imp ?_ (List.Pairwise.filter _ hpair)
          intro a b hab ha
          rw [decide_eq_false_iff_not] at ha ⊢
          push_neg at ha ⊢
          exact lt_of_lt_of_le ha hab
      have hfilters : ∀ n' ∈ ns,
          (es.dropWhile (fun e => decide (e.src < n))).filter
              (fun e => decide (e.src = n'))
            = es.filter (fun e => decide (e.src = n')) := by
        intro n' hn'
        rw [hgee, List.filter_filter]
        apply List.filter_congr
        intro e _
        by_cases h1 : e.src = n'
        · have h2 : n < n' := hns.1 n' hn'
          simp [h1, not_lt_of_gt h2, le_of_lt h2]
        · simp [h1]
      simp only [dump_blocks]
      rw [List.map_cons, string_join_cons, hblock]
      congr 1
      rw [ih _ hns.2 (hes.sublist (List.dropWhile_sublist _)) ?memb]
      case memb =>
        intro e he
        have heo : e ∈ es := (List.dropWhile_sublist _).mem he
        rcases hmem e heo with hin | hbelow
        · rcases List.mem_cons.1 hin with heq | hin
          · right
            intro m hm
            rw [heq]
            exact hns.1 m hm
          · left
            exact hin
        · right
          intro m hm
          exact hbelow m (List.mem_cons_of_mem n hm)
      congr 1
      apply List.map_congr_left
      intro n' hn'
      rw [hfilters n' hn']

end Dump

section CopyFind

variable {g : graph N E}

/-- Re-inserting an ascending run of fresh nodes appends them in order. -/
theorem foldl_insert_node_rebuild :
    ∀ (ns : List N) (b : graph N E),
      ns.Sorted (· < ·) →
      (∀ x ∈ b.nodes, ∀ m ∈ ns, x < m) →
      (ns.foldl (fun acc n => (acc.insert_node n).2) b)
        = { b with nodes := b.nodes ++ ns } := by
  intro ns
  induction ns with
  | nil =>
      intro b _ _
      simp
  | cons nn ns ih =>
      intro b hs hgt
      rw [List.sorted_cons] at hs
      rw [List.foldl_cons]
      have hnotmem : nn ∉ b.nodes :=
        fun hmem => lt_irrefl nn (hgt nn hmem nn (List.mem_cons_self nn ns))
      have hins : (b.insert_node nn).2 = { b with nodes := b.nodes ++ [nn] } := by
        unfold insert_node
        rw [if_neg hnotmem,
          setInsert_append (fun x hx => hgt x hx nn (List.mem_cons_self nn ns))]
      rw [hins, ih _ hs.2 ?gt]
      case gt =>
        intro x hx m hm
        rcases List.mem_append.1 hx with hx | hx
        · exact hgt x hx m (List.mem_cons_of_mem nn hm)
        · rw [List.mem_singleton.1 hx]
          exact hs.1 m hm
      simp

/-- Re-inserting an ascending run of fresh edges between present nodes
appends them in order. -/
theorem foldl_insert_edge_rebuild :
    ∀ (es : List (edge_type N E)) (b : graph N E),
      es.Sorted (· < ·) →
      (∀ e ∈ es, e.src ∈ b.nodes ∧ e.dst ∈ b.nodes) →
      (∀ x ∈ b.all_edges, ∀ e ∈ es, x < e) →
      (es.foldl (fun acc e => acc.insert_edge_run e.src e.dst e.weight) b).nodes
          = b.nodes ∧
      (es.foldl (fun acc e => acc.insert_edge_run e.src e.dst e.weight) b).all_edges
          = b.all_edges ++ es := by
  intro es
  induction es with
  | nil =>
      intro b _ _ _
      simp
  | cons e es ih =>
      intro b hs href hgt
      rw [List.sorted_cons] at hs
      rw [List.foldl_cons]
      have hmem : (⟨e.src, e.dst, e.weight⟩ : edge_type N E) ∉ b.all_edges := by
        intro hmem
        exact lt_irrefl _ (hgt _ hmem e (List.mem_cons_self e es))
      obtain ⟨hsrc, hdst⟩ := href e (List.mem_cons_self e es)
      obtain ⟨_, hnodes, hedges, _, _⟩ := insert_edge_new hsrc hdst hmem
      have hedges2 : (b.insert_edge_run e.src e.dst e.weight).all_edges
          = b.all_edges ++ [e] := by
        rw [hedges, setInsert_append (fun x hx => hgt x hx e (List.mem_cons_self e es))]
      have href2 : ∀ e2 ∈ es,
          e2.src ∈ (b.insert_edge_run e.src e.dst e.weight).nodes ∧
          e2.dst ∈ (b.insert_edge_run e.src e.dst e.weight).nodes := by
        intro e2 he2
        rw [hnodes]
        exact href e2 (List.mem_cons_of_mem e he2)
      have hgt2 : ∀ x ∈ (b.insert_edge_run e.src e.dst e.weight).all_edges,
          ∀ e2 ∈ es, x < e2 := by
        intro x hx e2 he2
        rw [hedges2] at hx
        rcases List.mem_append.1 hx with hx | hx
        · exact hgt x hx e2 (List.mem_cons_of_mem e he2)
        · rw [List.mem_singleton.1 hx]
          exact hs.1 e2 he2
      obtain ⟨ihn, ihe⟩ := ih (b.insert_edge_run e.src e.dst e.weight) hs.2 href2 hgt2
      refine ⟨by rw [ihn, hnodes], ?_⟩
      rw [ihe, hedges2, List.append_assoc, List.singleton_append]

/-- A copy-constructed graph compares equal to its source. -/
theorem graphEq_copy_ctor [Inhabited E] (h : WellFormed g) :
    graphEq (copy_ctor g) g = true := by
  obtain ⟨h1, h2, h3⟩ := h
  unfold copy_ctor
  have hbase : (g.nodes.foldl (fun acc n => (acc.insert_node n).2) init)
      = ({ all_edges := [], nodes := g.nodes,
           min_weight := default, max_weight := default } : graph N E) := by
    rw [foldl_insert_node_rebuild g.nodes (init : graph N E) h1
      (by intro x hx; simp [init] at hx)]
    simp [init]
  rw [hbase]
  obtain ⟨hn, he⟩ := foldl_insert_edge_rebuild g.all_edges
      ({ all_edges := [], nodes := g.nodes,
         min_weight := default, max_weight := default } : graph N E) h2
      (fun e he => h3 e he)
      (by intro x hx; simp at hx)
  rw [graphEq, if_neg (by simp [hn, he]), hn, he]
  simp

end CopyFind

section ThrowHelpers

variable {g : graph N E}

theorem erase_edge_run_bounds (src dst : N) (w : E) :
    (g.erase_edge_run src dst w).min_weight = g.min_weight ∧
    (g.erase_edge_run src dst w).max_weight = g.max_weight := by
  unfold erase_edge_run erase_edge
  by_cases hg2 : src ∉ g.nodes ∨ dst ∉ g.nodes
  · rw [if_pos hg2]
    exact ⟨rfl, rfl⟩
  · rw [if_neg hg2]
    dsimp only
    by_cases hm : (⟨src, dst, w⟩ : edge_type N E) ∈ g.all_edges
    · rw [if_neg (by simpa using hm)]
      exact ⟨rfl, rfl⟩
    · rw [if_pos (by simpa using hm)]
      exact ⟨rfl, rfl⟩

theorem erase_node_bounds (v : N) :
    (g.erase_node v).2.min_weight = g.min_weight ∧
    (g.erase_node v).2.max_weight = g.max_weight := by
  unfold erase_node
  by_cases hv : v ∉ g.nodes
  · rw [if_pos hv]
    exact ⟨rfl, rfl⟩
  · rw [if_neg hv]
    exact ⟨rfl, rfl⟩

theorem insert_edge_throws_iff (src dst : N) (w : E) :
    throws (g.insert_edge src dst w) = true ↔ (src ∉ g.nodes ∨ dst ∉ g.nodes) := by
  unfold insert_edge
  by_cases hg2 : src ∉ g.nodes ∨ dst ∉ g.nodes
  · rw [if_pos hg2]
    simp [throws, hg2]
  · rw [if_neg hg2]
    constructor
    · intro h
      exfalso
      revert h
      dsimp only
      split <;> split <;> simp [throws]
    · intro h
      exact absurd h hg2

theorem erase_edge_throws_iff (src dst : N) (w : E) :
    throws (g.erase_edge src dst w) = true ↔ (src ∉ g.nodes ∨ dst ∉ g.nodes) := by
  unfold erase_edge
  by_cases hg2 : src ∉ g.nodes ∨ dst ∉ g.nodes
  · rw [if_pos hg2]
    simp [throws, hg2]
  · rw [if_neg hg2]
    constructor
    · intro h
      exfalso
      revert h
      dsimp only
      split <;> simp [throws]
    · intro h
      exact absurd h hg2

theorem merge_replace_node_throws_iff (o n : N) :
    throws (g.merge_replace_node o n) = true ↔ (o ∉ g.nodes ∨ n ∉ g.nodes) := by
  unfold merge_replace_node
  by_cases hg2 : o ∉ g.nodes ∨ n ∉ g.nodes
  · rw [if_pos hg2]
    simp [throws, hg2]
  · rw [if_neg hg2]
    constructor
    · intro h
      exfalso
      revert h
      split <;> simp [throws]
    · intro h
      exact absurd h hg2

theorem replace_node_throws_iff (o n : N) :
    throws (g.replace_node o n) = true ↔ o ∉ g.nodes := by
  obtain ⟨hc1, hc2, hc3⟩ := replace_node_cases (g := g) o n
  by_cases ho : o ∈ g.nodes
  · by_cases hn : n ∈ g.nodes
    · rw [hc2 ho hn]
      simp [throws, ho]
    · rw [hc3 ho hn]
      simp [throws, ho]
  · rw [hc1 (by simpa using ho)]
    simp [throws, ho]

theorem is_connected_throws_iff (src dst : N) :
    throws (g.is_connected src dst) = true ↔ (src ∉ g.nodes ∨ dst ∉ g.nodes) := by
  unfold is_connected
  by_cases hg2 : src ∉ g.nodes ∨ dst ∉ g.nodes
  · rw [if_pos hg2]
    simp [throws, hg2]
  · rw [if_neg hg2]
    constructor
    · intro h
      exfalso
      revert h
      dsimp only
      split <;> simp [throws]
    · intro h
      exact absurd h hg2

theorem weights_throws_iff (src dst : N) :
    throws (g.weights src dst) = true ↔ (src ∉ g.nodes ∨ dst ∉ g.nodes) := by
  unfold weights
  by_cases hg2 : src ∉ g.nodes ∨ dst ∉ g.nodes
  · rw [if_pos hg2]
    simp [throws, hg2]
  · rw [if_neg hg2]
    simp [throws, hg2]

theorem connections_throws_iff (v : N) :
    throws (g.connections v) = true ↔ v ∉ g.nodes := by
  unfold connections
  by_cases hv : v ∉ g.nodes
  · rw [if_pos hv]
    simp [throws, hv]
  · rw [if_neg hv]
    constructor
    · intro h
      exfalso
      revert h
      split <;> simp [throws]
    · intro h
      exact absurd h hv

theorem insert_edge_run_of_throws {src dst : N} {w : E}
    (h : throws (g.insert_edge src dst w) = true) :
    g.insert_edge_run src dst w = g := by
  unfold insert_edge_run
  cases hr : g.insert_edge src dst w with
  | error m => rfl
  | ok p =>
      rw [hr] at h
      simp [throws] at h

theorem erase_edge_run_of_throws {src dst : N} {w : E}
    (h : throws (g.erase_edge src dst w) = true) :
    g.erase_edge_run src dst w = g := by
  unfold erase_edge_run
  cases hr : g.erase_edge src dst w with
  | error m => rfl
  | ok p =>
      rw [hr] at h
      simp [throws] at h

theorem replace_node_run_of_throws {o n : N}
    (h : throws (g.replace_node o n) = true) :
    g.replace_node_run o n = g := by
  unfold replace_node_run
  cases hr : g.replace_node o n with
  | error m => rfl
  | ok p =>
      rw [hr] at h
      simp [throws] at h

theorem merge_replace_node_run_of_throws {o n : N}
    (h : throws (g.merge_replace_node o n) = true) :
    g.merge_replace_node_run o n = g := by
  unfold merge_replace_node_run
  cases hr : g.merge_replace_node o n with
  | error m => rfl
  | ok p =>
      rw [hr] at h
      simp [throws] at h

end ThrowHelpers

section Claims

/-- C1: Referential integrity holds for every reachable graph state — every
edge obtainable through iteration has both its source and destination
present in the node store — and `erase_node(v)`, for a `v` currently a node,
returns true and removes exactly every edge whose source or destination
equals `v`. -/
theorem claim_C1 [Inhabited E] {mv : Bool} {g : graph N E} (hg : Reach mv g) :
    (∀ e ∈ g.all_edges, e.src ∈ g.nodes ∧ e.dst ∈ g.nodes) ∧
    (∀ v ∈ g.nodes,
      (g.erase_node v).1 = true ∧
      (∀ e ∈ (g.erase_node v).2.all_edges, e.src ≠ v ∧ e.dst ≠ v) ∧
      (g.erase_node v).2.all_edges
        = g.all_edges.filter (fun e => decide (¬ (e.src = v ∨ e.dst = v))) ∧
      (g.erase_node v).2.nodes = setErase v g.nodes) := by
  refine ⟨(reach_wellFormed hg).2.2, ?_⟩
  intro v hv
  unfold erase_node
  rw [if_neg (by simpa using hv)]
  refine ⟨rfl, ?_, rfl, rfl⟩
  intro e he
  rw [List.mem_filter, decide_eq_true_iff] at he
  obtain ⟨_, hcond⟩ := he
  push_neg at hcond
  exact hcond

/-- C1 witness: the concrete scenario — nodes 1, 2, 3 and edges (1,1),
(1,2), (2,1); erasing node 1 returns true and leaves no edges and nodes
2, 3. -/
theorem claim_C1_witness :
    Reach false ex_refint ∧
    (∀ e ∈ ex_refint.all_edges,
      e.src ∈ ex_refint.nodes ∧ e.dst ∈ ex_refint.nodes) ∧
    (ex_refint.erase_node 1).1 = true ∧
    (ex_refint.erase_node 1).2.all_edges = [] ∧
    (ex_refint.erase_node 1).2.nodes = [2, 3] := by
  have hr : Reach false ex_refint :=
    Reach.insert_edge false _ 2 1 ['w'] (Reach.insert_edge false _ 1 2 ['w']
      (Reach.insert_edge false _ 1 1 ['w'] (Reach.insert_node false _ 3
        (Reach.insert_node false _ 2 (Reach.insert_node false _ 1
          (Reach.init false))))))
  exact ⟨hr, (claim_C1 hr).1, ((claim_C1 hr).2 1 (by decide)).1, by decide,
    by decide⟩

/-- C2: `merge_replace_node(old, new)` with both nodes present and distinct
removes `old` from the node store, redirects to `new` every edge endpoint
equal to `old` (edges with neither endpoint equal to `old` are untouched),
keeps one copy of any edges that become value-equal, leaves no edge
mentioning `old`, and never increases the edge count. -/
theorem claim_C2 {g : graph N E} {o n : N} (h2 : EdgesOrdered g)
    (ho : o ∈ g.nodes) (hn : n ∈ g.nodes) (hne : o ≠ n) :
    g.merge_replace_node o n = .ok (g.merge_replace_node_run o n) ∧
    o ∉ (g.merge_replace_node_run o n).nodes ∧
    (∀ x ∈ (g.merge_replace_node_run o n).all_edges,
      x.src ≠ o ∧ x.dst ≠ o) ∧
    (∀ e ∈ g.all_edges,
      update_edge o n e ∈ (g.merge_replace_node_run o n).all_edges) ∧
    (∀ e ∈ g.all_edges, ¬ (e.src = o ∨ e.dst = o) →
      e ∈ (g.merge_replace_node_run o n).all_edges) ∧
    (∀ x ∈ (g.merge_replace_node_run o n).all_edges,
      ∃ e ∈ g.all_edges, x = update_edge o n e) ∧
    (g.merge_replace_node_run o n).all_edges.length ≤ g.all_edges.length := by
  obtain ⟨heq, hnodes, hedges, _, _⟩ := merge_replace_node_ok ho hn hne
  refine ⟨by rw [heq], ?_, ?_, ?_, ?_, ?_, ?_⟩
  · rw [hnodes]
    exact fun hc => (mem_setErase.1 hc).2 rfl
  · intro x hx
    obtain ⟨e, he, rfl⟩ := (mem_merge_run ho hn hne x).1 hx
    have hno := update_edge_not_old hne e
    push_neg at hno
    exact hno
  · intro e he
    exact (mem_merge_run ho hn hne _).2 ⟨e, he, rfl⟩
  · intro e he hno
    exact (mem_merge_run ho hn hne _).2 ⟨e, he, update_edge_id hno⟩
  · intro x hx
    obtain ⟨e, he, heq2⟩ := (mem_merge_run ho hn hne x).1 hx
    exact ⟨e, he, heq2.symm⟩
  · have hsort : (g.merge_replace_node_run o n).all_edges.Sorted (· < ·) := by
      rw [hedges]
      exact sorted_merge_foldl _ _ h2
    have hsub : (g.merge_replace_node_run o n).all_edges
        ⊆ g.all_edges.map (update_edge o n) := by
      intro x hx
      obtain ⟨e, he, rfl⟩ := (mem_merge_run ho hn hne x).1 hx
      exact List.mem_map.2 ⟨e, he, rfl⟩
    calc (g.merge_replace_node_run o n).all_edges.length
        ≤ (g.all_edges.map (update_edge o n)).length :=
          nodup_subset_length_le hsort.nodup hsub
      _ = g.all_edges.length := List.length_map _ _

/-- C2 witness: nodes 1, 2, 3 with edges (1,1,"cat"), (1,2,"cat"),
(2,2,"cat"); merging 1 into 2 collapses everything to the single edge
(2,2,"cat"). -/
theorem claim_C2_witness :
    EdgesOrdered ex_merge ∧ (1 : Int) ∈ ex_merge.nodes ∧
    (2 : Int) ∈ ex_merge.nodes ∧ (1 : Int) ≠ 2 ∧
    (∀ x ∈ (ex_merge.merge_replace_node_run 1 2).all_edges,
      x.src ≠ 1 ∧ x.dst ≠ 1) ∧
    (ex_merge.merge_replace_node_run 1 2).all_edges = [⟨2, 2, catw⟩] ∧
    (ex_merge.merge_replace_node_run 1 2).all_edges.length
      ≤ ex_merge.all_edges.length := by
  refine ⟨by decide, by decide, by decide, by decide, ?_, by decide, ?_⟩
  · exact (claim_C2 (by decide) (by decide) (by decide) (by decide)).2.2.1
  · exact (claim_C2 (g := ex_merge) (o := 1) (n := 2) (by decide) (by decide)
      (by decide) (by decide)).2.2.2.2.2.2

/-- C3: evaluation at the failing input.  The graph with nodes 1, 2 and the
edge (1, 2, "cat") is move-constructed into `ex_moved`; the move constructor
of the source transfers `nodes_` and `all_edges_` but not the running weight
bounds, so the synthetic bounding keys of `is_connected` and `weights` use
default-constructed bounds (the empty string) and miss the stored edge: both
queries deny the connection that the edge store plainly holds. -/
theorem claim_C3 :
    Reach true ex_moved ∧
    (1 : Int) ∈ ex_moved.nodes ∧ (2 : Int) ∈ ex_moved.nodes ∧
    edge_type.mk 1 2 catw ∈ ex_moved.all_edges ∧
    ex_moved.is_connected 1 2 = .ok false ∧
    ex_moved.weights 1 2 = .ok [] := by
  have hr : Reach true ex_moved :=
    Reach.move_ctor_to _ (Reach.insert_edge true _ 1 2 catw
      (Reach.insert_node true _ 2 (Reach.insert_node true _ 1
        (Reach.init true))))
  exact ⟨hr, by decide, by decide, by decide, by decide, by decide⟩

/-- C4 counterexample: the bounds are not the minimum and maximum weight
ever inserted.  Nodes 1, 2; insert edge (1,2,"b"), erase it (the store is
empty again), insert edge (1,2,"a"): the insertion into the empty store
resets both bounds to "a", although "b" < the recorded maximum would have to
hold if the bounds were over all weights ever inserted. -/
theorem claim_C4_counterexample :
    ex_b0.insert_edge 1 2 ['b'] = .ok (true, ex_b1) ∧
    ex_b1.erase_edge 1 2 ['b'] = .ok (true, ex_b2) ∧
    ex_b2.all_edges = [] ∧
    ex_b2.insert_edge 1 2 ['a'] = .ok (true, ex_b3) ∧
    ex_b3.max_weight = ['a'] ∧
    ex_b3.min_weight = ['a'] ∧
    (['a'] : List Char) < ['b'] :=
  ⟨by decide, by decide, by decide, by decide, by decide, by decide, by decide⟩

/-- C4 (amended): on every state reachable without move operations the
running bounds cover every weight currently present (they are reset to the
inserted weight when inserting into an empty edge store, so they track the
extremes since the store was last empty rather than over all time);
deleting an edge or a node never changes them; and every range query
through the synthetic bounding keys remains valid under this invariant. -/
theorem claim_C4 [Inhabited E] {g : graph N E} (hg : Reach false g) :
    BoundsCover g ∧
    (∀ src dst w, (g.erase_edge_run src dst w).min_weight = g.min_weight ∧
      (g.erase_edge_run src dst w).max_weight = g.max_weight) ∧
    (∀ e, (g.erase_edge_at e).min_weight = g.min_weight ∧
      (g.erase_edge_at e).max_weight = g.max_weight) ∧
    (∀ v, (g.erase_node v).2.min_weight = g.min_weight ∧
      (g.erase_node v).2.max_weight = g.max_weight) ∧
    (∀ src dst, src ∈ g.nodes → dst ∈ g.nodes →
      g.weights src dst = .ok ((g.all_edges.filter
        (fun e => decide (e.src = src ∧ e.dst = dst))).map edge_type.weight) ∧
      (g.is_connected src dst = .ok true ↔
        ∃ e ∈ g.all_edges, e.src = src ∧ e.dst = dst)) := by
  have hb := reach_boundsCover hg rfl
  have hw := reach_wellFormed hg
  refine ⟨hb, fun s d w => erase_edge_run_bounds s d w, fun e => ⟨rfl, rfl⟩,
    fun v => erase_node_bounds v, ?_⟩
  intro s d hs hd
  exact ⟨weights_eq_filter hw.2.1 hb hs hd, (is_connected_spec hw.2.1 hb hs hd).1⟩

/-- C4 witness: concrete run on nodes 1, 2 with the edge (1,2,"cat"). -/
theorem claim_C4_witness :
    Reach false ex_mv1 ∧
    BoundsCover ex_mv1 ∧
    (ex_mv1.erase_edge_run 1 2 catw).min_weight = ex_mv1.min_weight ∧
    ex_mv1.weights 1 2 = .ok ((ex_mv1.all_edges.filter
      (fun e => decide (e.src = 1 ∧ e.dst = 2))).map edge_type.weight) ∧
    ex_mv1.weights 1 2 = .ok [catw] := by
  have hr : Reach false ex_mv1 :=
    Reach.insert_edge false _ 1 2 catw (Reach.insert_node false _ 2
      (Reach.insert_node false _ 1 (Reach.init false)))
  exact ⟨hr, (claim_C4 hr).1, ((claim_C4 hr).2.1 1 2 catw).1,
    ((claim_C4 hr).2.2.2.2 1 2 (by decide) (by decide)).1, by decide⟩

/-- C5: with both endpoints present, `insert_edge(src, dst, weight)` returns
false and leaves the graph unmodified when the exact edge already exists;
otherwise it returns true, inserts exactly that edge, and updates the
running weight bounds. -/
theorem claim_C5 {g : graph N E} {src dst : N} (w : E)
    (hs : src ∈ g.nodes) (hd : dst ∈ g.nodes) :
    ((⟨src, dst, w⟩ : edge_type N E) ∈ g.all_edges →
      g.insert_edge src dst w = .ok (false, g)) ∧
    ((⟨src, dst, w⟩ : edge_type N E) ∉ g.all_edges →
      g.insert_edge src dst w = .ok (true, g.insert_edge_run src dst w) ∧
      (∀ x, x ∈ (g.insert_edge_run src dst w).all_edges ↔
        x = ⟨src, dst, w⟩ ∨ x ∈ g.all_edges) ∧
      (g.insert_edge_run src dst w).nodes = g.nodes ∧
      (g.all_edges = [] →
        (g.insert_edge_run src dst w).min_weight = w ∧
        (g.insert_edge_run src dst w).max_weight = w) ∧
      (g.all_edges ≠ [] →
        (g.insert_edge_run src dst w).min_weight = min g.min_weight w ∧
        (g.insert_edge_run src dst w).max_weight = max g.max_weight w)) := by
  constructor
  · exact insert_edge_dup hs hd
  · intro hmem
    obtain ⟨ha, hb, hc, hd2, he⟩ := insert_edge_new hs hd hmem
    exact ⟨ha, fun x => by rw [hc]; exact mem_setInsert, hb, hd2, he⟩

/-- C5 witness: inserting (1, 2, "cat") into the edge-less graph with nodes
1, 2, 3 returns true and stores exactly that edge; re-inserting it returns
false and changes nothing. -/
theorem claim_C5_witness :
    (1 : Int) ∈ ex_base3.nodes ∧ (2 : Int) ∈ ex_base3.nodes ∧
    edge_type.mk 1 2 catw ∉ ex_base3.all_edges ∧
    ex_base3.insert_edge 1 2 catw
      = .ok (true, ex_base3.insert_edge_run 1 2 catw) ∧
    (ex_base3.insert_edge_run 1 2 catw).all_edges = [⟨1, 2, catw⟩] ∧
    (ex_base3.insert_edge_run 1 2 catw).min_weight = catw ∧
    (ex_base3.insert_edge_run 1 2 catw).insert_edge 1 2 catw
      = .ok (false, ex_base3.insert_edge_run 1 2 catw) := by
  refine ⟨by decide, by decide, by decide, ?_, by decide, by decide, ?_⟩
  · exact ((claim_C5 catw (by decide) (by decide)).2 (by decide)).1
  · exact (claim_C5 (g := ex_base3.insert_edge_run 1 2 catw) catw
      (by decide) (by decide)).1 (by decide)

/-- C6: every operation with a node-existence precondition raises the
precondition-violation error exactly when a referenced node is absent, and
an operation that raises leaves the graph unchanged (no mutation is ever
partially applied). -/
theorem claim_C6 (g : graph N E) (src dst : N) (w : E) (o n v : N) :
    (throws (g.insert_edge src dst w) = true ↔
      (src ∉ g.nodes ∨ dst ∉ g.nodes)) ∧
    (throws (g.erase_edge src dst w) = true ↔
      (src ∉ g.nodes ∨ dst ∉ g.nodes)) ∧
    (throws (g.replace_node o n) = true ↔ o ∉ g.nodes) ∧
    (throws (g.merge_replace_node o n) = true ↔
      (o ∉ g.nodes ∨ n ∉ g.nodes)) ∧
    (throws (g.is_connected src dst) = true ↔
      (src ∉ g.nodes ∨ dst ∉ g.nodes)) ∧
    (throws (g.weights src dst) = true ↔
      (src ∉ g.nodes ∨ dst ∉ g.nodes)) ∧
    (throws (g.connections v) = true ↔ v ∉ g.nodes) ∧
    (throws (g.insert_edge src dst w) = true →
      g.insert_edge_run src dst w = g) ∧
    (throws (g.erase_edge src dst w) = true →
      g.erase_edge_run src dst w = g) ∧
    (throws (g.replace_node o n) = true → g.replace_node_run o n = g) ∧
    (throws (g.merge_replace_node o n) = true →
      g.merge_replace_node_run o n = g) :=
  ⟨insert_edge_throws_iff src dst w, erase_edge_throws_iff src dst w,
    replace_node_throws_iff o n, merge_replace_node_throws_iff o n,
    is_connected_throws_iff src dst, weights_throws_iff src dst,
    connections_throws_iff v,
    fun h => insert_edge_run_of_throws h, fun h => erase_edge_run_of_throws h,
    fun h => replace_node_run_of_throws h,
    fun h => merge_replace_node_run_of_throws h⟩

/-- C6 witness: the spec's error scenario — nodes 1, 2, 3 and no node 5;
`insert_edge(1, 5, "x")` raises and node and edge counts are unchanged. -/
theorem claim_C6_witness :
    throws (ex_base3.insert_edge 1 5 ['x']) = true ∧
    ex_base3.insert_edge_run 1 5 ['x'] = ex_base3 ∧
    (ex_base3.insert_edge_run 1 5 ['x']).nodes.length = 3 ∧
    (ex_base3.insert_edge_run 1 5 ['x']).all_edges.length = 0 ∧
    throws (ex_base3.connections 7) = true := by
  have hc := claim_C6 ex_base3 1 5 ['x'] 1 2 7
  have hth : throws (ex_base3.insert_edge 1 5 ['x']) = true :=
    hc.1.2 (by decide)
  exact ⟨hth, hc.2.2.2.2.2.2.2.1 hth, by decide, by decide,
    hc.2.2.2.2.2.2.1.2 (by decide)⟩

/-- C7: `replace_node(old, new)` throws exactly when `old` is absent; when
`new` is already a node it returns false and performs no mutation (so `old`
stays present); otherwise it inserts `new` as a node, merges `old` into
`new` exactly as `merge_replace_node` does, and returns true. -/
theorem claim_C7 (g : graph N E) (o n : N) :
    (throws (g.replace_node o n) = true ↔ o ∉ g.nodes) ∧
    (o ∈ g.nodes → n ∈ g.nodes →
      g.replace_node o n = .ok (false, g) ∧ o ∈ g.nodes) ∧
    (o ∈ g.nodes → n ∉ g.nodes →
      g.replace_node o n = .ok (true,
        ({ g with nodes := setInsert n g.nodes } : graph N E).merge_replace_node_run
          o n) ∧
      o ∉ (g.replace_node_run o n).nodes ∧
      n ∈ (g.replace_node_run o n).nodes) := by
  obtain ⟨hc1, hc2, hc3⟩ := replace_node_cases (g := g) o n
  refine ⟨replace_node_throws_iff o n, fun ho hn => ⟨hc2 ho hn, ho⟩, ?_⟩
  intro ho hn
  have hne : o ≠ n := fun hcon => hn (hcon ▸ ho)
  have ho2 : o ∈ setInsert n g.nodes := mem_setInsert.2 (Or.inr ho)
  have hn2 : n ∈ setInsert n g.nodes := mem_setInsert.2 (Or.inl rfl)
  obtain ⟨_, hnodes, _, _, _⟩ :=
    merge_replace_node_ok (g := { g with nodes := setInsert n g.nodes }) ho2 hn2 hne
  have hrun : g.replace_node_run o n
      = ({ g with nodes := setInsert n g.nodes } : graph N E).merge_replace_node_run
          o n := by
    unfold replace_node_run
    rw [hc3 ho hn]
  refine ⟨hc3 ho hn, ?_, ?_⟩
  · rw [hrun, hnodes]
    exact fun hcon => (mem_setErase.1 hcon).2 rfl
  · rw [hrun, hnodes]
    exact mem_setErase.2 ⟨hn2, fun hcon => hne hcon.symm⟩

/-- C7 witness: on nodes 1, 2 with edge (1,2,"cat"): replacing 1 by the
present node 2 returns false without mutation; replacing 1 by the fresh
node 9 returns true, removes 1 and adds 9. -/
theorem claim_C7_witness :
    (throws (ex_mv1.replace_node 7 2) = true ↔ (7 : Int) ∉ ex_mv1.nodes) ∧
    ex_mv1.replace_node 1 2 = .ok (false, ex_mv1) ∧
    (1 : Int) ∉ (ex_mv1.replace_node_run 1 9).nodes ∧
    (9 : Int) ∈ (ex_mv1.replace_node_run 1 9).nodes ∧
    (ex_mv1.replace_node_run 1 9).nodes = [2, 9] ∧
    (ex_mv1.replace_node_run 1 9).all_edges = [⟨9, 2, catw⟩] := by
  refine ⟨(claim_C7 ex_mv1 7 2).1, ((claim_C7 ex_mv1 1 2).2.1 (by decide)
    (by decide)).1, ?_, ?_, by decide, by decide⟩
  · exact ((claim_C7 ex_mv1 1 9).2.2 (by decide) (by decide)).2.1
  · exact ((claim_C7 ex_mv1 1 9).2.2 (by decide) (by decide)).2.2

/-- C8: after a move, the moved-from graph is empty and compares equal to a
default-constructed graph, while the moved-to graph compares equal (under
`operator==`) to the value held before the move; a copy-constructed graph
likewise compares equal to its source. -/
theorem claim_C8 [Inhabited E] {g t : graph N E} (h : WellFormed g) :
    graphEq g.move_ctor_to g = true ∧
    g.moved_from.empty = true ∧
    g.moved_from.all_edges = [] ∧
    graphEq g.moved_from init = true ∧
    graphEq (t.move_assign_to g) g = true ∧
    graphEq (copy_ctor g) g = true := by
  refine ⟨?_, rfl, rfl, ?_, ?_, graphEq_copy_ctor h⟩
  · simp [graphEq, move_ctor_to]
  · simp [graphEq, moved_from, init]
  · simp [graphEq, move_assign_to]

/-- C8 witness: concrete moves and copy of the three-node "cat" graph. -/
theorem claim_C8_witness :
    WellFormed ex_merge ∧
    graphEq ex_merge.move_ctor_to ex_merge = true ∧
    ex_merge.moved_from.empty = true ∧
    graphEq ex_merge.moved_from init = true ∧
    graphEq (ex_b0.move_assign_to ex_merge) ex_merge = true ∧
    graphEq (copy_ctor ex_merge) ex_merge = true := by
  have h : WellFormed ex_merge := by decide
  have hc := claim_C8 (t := ex_b0) h
  exact ⟨h, hc.1, hc.2.1, hc.2.2.2.1, hc.2.2.2.2.1, hc.2.2.2.2.2⟩

/-- C9: the text dump emits, for every node in ascending order, the node's
textual form, `" ("` and a newline, then one line per outgoing edge in
ascending (destination, weight) order, then `")"` and a newline; an empty
graph emits nothing, and a node without outgoing edges contributes a block
with no edge lines. -/
theorem claim_C9 [ToString N] [ToString E] {g : graph N E}
    (h : WellFormed g) :
    ostream_dump g = String.join (g.nodes.map (fun n =>
      toString n ++ " (\n" ++
      String.join ((g.all_edges.filter
        (fun e => decide (e.src = n))).map edge_line) ++
      ")\n")) := by
  obtain ⟨h1, h2, h3⟩ := h
  unfold ostream_dump
  by_cases hne : g.empty = true
  · rw [if_pos hne]
    unfold empty at hne
    rw [List.isEmpty_iff.1 hne]
    rfl
  · rw [if_neg hne]
    exact dump_blocks_eq g.nodes g.all_edges h1 h2
      (fun e he => Or.inl (h3 e he).1)

/-- C9 witness: the spec's extractor scenario — edges (4,1,-4), (2,1,1),
(1,5,-1) and the isolated node 64, whose block renders with no edge
lines. -/
theorem claim_C9_witness :
    WellFormed ex_dump ∧
    ostream_dump ex_dump = String.join (ex_dump.nodes.map (fun n =>
      toString n ++ " (\n" ++
      String.join ((ex_dump.all_edges.filter
        (fun e => decide (e.src = n))).map edge_line) ++
      ")\n")) ∧
    ostream_dump ex_dump
      = "1 (\n  5 | -1\n)\n2 (\n  1 | 1\n)\n4 (\n  1 | -4\n)\n5 (\n)\n64 (\n)\n" := by
  have h : WellFormed ex_dump := by decide
  exact ⟨h, claim_C9 h, by decide⟩

/-- C10: `find(src, dst, weight)` never raises a precondition-violation
error — its checking of the node store is absent by construction — and for
every graph and triple it returns the matching edge when the exact
(src, dst, weight) edge is present (modelled as `some` of that edge) and
the end iterator (`none`) otherwise, including when the endpoints are not
nodes of the graph. -/
theorem claim_C10 (g : graph N E) (src dst : N) (w : E) :
    g.find src dst w =
      if (⟨src, dst, w⟩ : edge_type N E) ∈ g.all_edges
      then some ⟨src, dst, w⟩ else none :=
  find_self_eq _ _

end Claims

end graph

end gdwg
